import Mathlib

/-
  Verification development for the `primi_composti` two-player arithmetic
  card game engine.  The definitions below are a shallow embedding of the
  Python sources (`Player.py`, `GameState.py`, `Game.py`): Python sets of
  card values become `Finset ℕ`, the ordered capture stacks become
  `List ℕ`, the insertion-ordered playable-move dictionary becomes an
  association list `List (Finset ℕ × ℤ)` with in-place value replacement,
  in-place mutation becomes explicit state passing, and the IEEE
  `float("-inf")` / `float("+inf")` sentinels used by the minimax search
  become the extended-integer type `XInt` (only comparisons and
  integer-shifts are ever applied to them).  Python's set iteration order
  is modelled deterministically by iterating card sets in ascending order.
-/

namespace PrimiComposti

/-- Modelled from the spec: the external pure primality predicate
`is_prime(n) -> bool` provided by the `util` module, which is not under
`src/`.  A card value is prime iff it is at least 2 and no value in
`[2, n-1]` divides it; every non-prime card is classified composite. -/
def is_prime (n : ℕ) : Bool :=
  decide (2 ≤ n) && (List.range (n - 2)).all (fun d => decide (n % (d + 2) ≠ 0))

/-- Deterministic model of Python's iteration over a set of card values:
the elements in ascending order.  Defined by filtering an initial segment
of the naturals so that every function below stays kernel-computable. -/
def setList (s : Finset ℕ) : List ℕ :=
  (List.range (s.sup id + 1)).filter (fun c => decide (c ∈ s))

/-- Score granted by a prime card (`Game.PRIME_SCORE`). -/
def PRIME_SCORE : ℤ := 2

/-- Score granted by a composite card (`Game.COMPOSITE_SCORE`). -/
def COMPOSITE_SCORE : ℤ := 1

/-- Extended integers: the values `float("-inf")`, `float("+inf")` and
exact integers, the only numeric values flowing through the minimax
payoff bookkeeping in `Game.minimax`. -/
inductive XInt where
  | negInf : XInt
  | fin : ℤ → XInt
  | posInf : XInt
deriving DecidableEq

/-- Comparison `a <= b` on extended integers. -/
def XInt.leX : XInt → XInt → Bool
  | .negInf, _ => true
  | _, .posInf => true
  | .posInf, _ => false
  | _, .negInf => false
  | .fin a, .fin b => decide (a ≤ b)

/-- Comparison `a < b` on extended integers. -/
def XInt.ltX : XInt → XInt → Bool
  | _, .negInf => false
  | .negInf, _ => true
  | .posInf, _ => false
  | .fin _, .posInf => true
  | .fin a, .fin b => decide (a < b)

/-- Python `max(a, b)` on extended integers (first argument on ties). -/
def XInt.maxX (a b : XInt) : XInt := if a.ltX b then b else a

/-- Python `min(a, b)` on extended integers (first argument on ties). -/
def XInt.minX (a b : XInt) : XInt := if b.ltX a then b else a

/-- Addition of an exact integer to an extended integer. -/
def XInt.addInt : XInt → ℤ → XInt
  | .negInf, _ => .negInf
  | .posInf, _ => .posInf
  | .fin a, v => .fin (a + v)

/-- Subtraction of an exact integer from an extended integer. -/
def XInt.subInt : XInt → ℤ → XInt
  | .negInf, _ => .negInf
  | .posInf, _ => .posInf
  | .fin a, v => .fin (a - v)

/-- State of one player (`Player.py`): the hand as a set of card values,
and the two ordered capture stacks. -/
structure Player where
  hand : Finset ℕ
  primes : List ℕ
  composites : List ℕ
deriving DecidableEq, Inhabited

/-- Source `Player.hand_list`: the hand as a list (set iteration modelled in
ascending order). -/
def Player.hand_list (p : Player) : List ℕ := setList p.hand

/-- Source `Player.add_hand`. -/
def Player.add_hand (p : Player) (c : ℕ) : Player := { p with hand := insert c p.hand }

/-- Source `Player.remove_hand`: remove a card from the hand if present. -/
def Player.remove_hand (p : Player) (c : ℕ) : Player := { p with hand := p.hand.erase c }

/-- Source `Player.is_hand_empty`. -/
def Player.is_hand_empty (p : Player) : Bool := decide (p.hand.card = 0)

/-- Source `Player.can_play_move`: the hand intersects the move's card set. -/
def Player.can_play_move (p : Player) (move : Finset ℕ) : Bool :=
  decide ((p.hand ∩ move).card ≠ 0)

/-- Source `Player.prime_contains`. -/
def Player.prime_contains (p : Player) (c : ℕ) : Bool := decide (c ∈ p.primes)

/-- Source `Player.composite_contains`. -/
def Player.composite_contains (p : Player) (c : ℕ) : Bool := decide (c ∈ p.composites)

/-- Source `Player.add_prime`: append to the primes stack. -/
def Player.add_prime (p : Player) (c : ℕ) : Player := { p with primes := p.primes ++ [c] }

/-- Source `Player.remove_prime`: drop the first occurrence, if present. -/
def Player.remove_prime (p : Player) (c : ℕ) : Player :=
  if p.prime_contains c then { p with primes := p.primes.erase c } else p

/-- Source `Player.add_composite`: append to the composites stack. -/
def Player.add_composite (p : Player) (c : ℕ) : Player :=
  { p with composites := p.composites ++ [c] }

/-- Source `Player.remove_composite`: drop the first occurrence, if present. -/
def Player.remove_composite (p : Player) (c : ℕ) : Player :=
  if p.composite_contains c then { p with composites := p.composites.erase c } else p

/-- Source `Player.add_stacks`: route a card to its stack by primality; a card
already present is first removed so that it becomes the last element. -/
def Player.add_stacks (p : Player) (c : ℕ) : Player :=
  if is_prime c then
    (if p.prime_contains c then p.remove_prime c else p).add_prime c
  else
    (if p.composite_contains c then p.remove_composite c else p).add_composite c

/-- Source `Player.remove_stacks`: remove a card from its stack if present. -/
def Player.remove_stacks (p : Player) (c : ℕ) : Player :=
  if is_prime c && p.prime_contains c then p.remove_prime c
  else if !is_prime c && p.composite_contains c then p.remove_composite c
  else p

/-- Source `Player.obtain_last_prime`: the last prime captured; the Python `-1`
sentinel for an empty stack is modelled by `Option`. -/
def Player.obtain_last_prime (p : Player) : Option ℕ := p.primes.getLast?

/-- Source `Player.obtain_last_composite`. -/
def Player.obtain_last_composite (p : Player) : Option ℕ := p.composites.getLast?

/-- Mutable state of `Game.py`: configuration, turn counter, cumulative
signed payoff `u`, the two players (index `A = 0`, `B = 1`), the table,
first/current player indices, the insertion-ordered playable-move table
and the per-turn payoff log. -/
structure Game where
  num_cards : ℕ
  num_hand : ℕ
  num_table : ℕ
  change_first : Bool
  depth : ℕ
  turn : ℕ
  u : ℤ
  players : Player × Player
  table : Finset ℕ
  first : ℕ
  current : ℕ
  playable_sets : List (Finset ℕ × ℤ)
  turn_payoffs : List ℤ
deriving DecidableEq

/-- Snapshot of the mutable game state (`GameState.py`); the deep copies
taken by `GameState.__init__` are the identity on immutable values. -/
structure GameState where
  players : Player × Player
  table : Finset ℕ
  u : ℤ
  turn : ℕ
  current : ℕ
  playable_sets : List (Finset ℕ × ℤ)
  played_set : Finset ℕ
  played_payoff : ℤ
deriving DecidableEq, Inhabited

/-- Source `self.players[i]` for the indices `0`/`1` actually used by the code. -/
def Game.player (g : Game) (i : ℕ) : Player :=
  if i % 2 = 0 then g.players.1 else g.players.2

/-- Source `Game.is_over`: both hands are empty. -/
def Game.is_over (g : Game) : Bool :=
  g.players.1.is_hand_empty && g.players.2.is_hand_empty

/-- Source `Game.get_winner`: index of the winner, `-1` on a tie. -/
def Game.get_winner (g : Game) : ℤ :=
  if 0 < g.u then (g.first : ℤ)
  else if g.u < 0 then (((g.first + 1) % 2 : ℕ) : ℤ)
  else -1

/-- Source `Game.find_playable_cards`: third-card values derivable from two
table cards by the four operators, kept when in `[2, num_cards+1]`;
division only when exact, in both directions. -/
def Game.find_playable_cards (g : Game) (c1 c2 : ℕ) : List ℕ :=
  (if 1 < c1 + c2 ∧ c1 + c2 < g.num_cards + 2 then [c1 + c2] else [])
    ++ (if 1 < ((c1 : ℤ) - (c2 : ℤ)).natAbs ∧ ((c1 : ℤ) - (c2 : ℤ)).natAbs < g.num_cards + 2
        then [((c1 : ℤ) - (c2 : ℤ)).natAbs] else [])
    ++ (if 1 < c1 * c2 ∧ c1 * c2 < g.num_cards + 2 then [c1 * c2] else [])
    ++ (if (1 < c1 / c2 ∧ c1 / c2 < g.num_cards + 2) ∧ c1 % c2 = 0 then [c1 / c2] else [])
    ++ (if (1 < c2 / c1 ∧ c2 / c1 < g.num_cards + 2) ∧ c2 % c1 = 0 then [c2 / c1] else [])

/-- Source `Game.calculate_move_payoff`: 0 unless the set has exactly 3 cards;
otherwise, per card, the "obtained" if/elif block against the acting
player's stacks followed by the "stolen" if/elif block against the
opponent's stacks, accumulated over the set. -/
def Game.calculate_move_payoff (g : Game) (card_set : Finset ℕ) : ℤ :=
  if card_set.card ≠ 3 then 0
  else
    let p1 := g.player g.current
    let p2 := g.player ((g.current + 1) % 2)
    (setList card_set).foldl
      (fun payoff c =>
        let is_pr := is_prime c
        let payoff1 :=
          if is_pr && !p1.prime_contains c then payoff + PRIME_SCORE
          else if !is_pr && !p1.composite_contains c then payoff + COMPOSITE_SCORE
          else payoff
        if is_pr && p2.prime_contains c then payoff1 + PRIME_SCORE
        else if !is_pr && p2.composite_contains c then payoff1 + COMPOSITE_SCORE
        else payoff1)
      0

/-- Python `dict` insertion on the association list modelling
`self.playable_sets`: replace the value in place if the key is present,
otherwise append the new binding. -/
def dictInsert (l : List (Finset ℕ × ℤ)) (k : Finset ℕ) (v : ℤ) : List (Finset ℕ × ℤ) :=
  match l with
  | [] => [(k, v)]
  | (k0, v0) :: rest => if k0 = k then (k0, v) :: rest else (k0, v0) :: dictInsert rest k v

/-- The ordered pairs `(table_list[i], table_list[j])`, `i < j`, visited
by the nested loops of `Game.find_playable_sets`. -/
def tablePairs : List ℕ → List (ℕ × ℕ)
  | [] => []
  | c :: rest => (rest.map (fun c2 => (c, c2))) ++ tablePairs rest

/-- Source `Game.find_playable_sets`: every 3-distinct-card set formed by a
table pair and a derivable third card, mapped to its payoff, followed by
a zero-payoff singleton entry per card of the active player's hand. -/
def Game.find_playable_sets (g : Game) : List (Finset ℕ × ℤ) :=
  let table_list := setList g.table
  let base := (tablePairs table_list).foldl
    (fun acc pr =>
      (g.find_playable_cards pr.1 pr.2).foldl
        (fun acc2 c3 =>
          let s : Finset ℕ := insert pr.1 (insert pr.2 {c3})
          if s.card = 3 then dictInsert acc2 s (g.calculate_move_payoff s) else acc2)
        acc)
    []
  ((g.player g.current).hand_list).foldl (fun acc c => dictInsert acc {c} 0) base

/-- Write the acting player (at index `i`) and the opponent (at index
`(i+1) % 2`) back into the player pair. -/
def writePlayers (i : ℕ) (p1 p2 : Player) : Player × Player :=
  if i % 2 = 0 then (p1, p2) else (p2, p1)

/-- The hand/stack mutation of `Game.update_players` on the acting
player `p` and the opponent `q`: per played card, for a 3-card capture
pop it from both players' stacks, and in all cases remove it from the
acting player's hand; finally, for a capture, push every played card
onto the acting player's stacks. -/
def moveHands (cards : Finset ℕ) (p q : Player) : Player × Player :=
  let card_list := setList cards
  let pq := card_list.foldl
    (fun (pq : Player × Player) c =>
      let pq1 := if cards.card = 3 then (pq.1.remove_stacks c, pq.2.remove_stacks c) else pq
      (pq1.1.remove_hand c, pq1.2))
    (p, q)
  if cards.card = 3 then (card_list.foldl (fun p c => p.add_stacks c) pq.1, pq.2) else pq

/-- The table cleanup of `Game.update_players`: remove the acting
player's last prime and last composite from the table if present. -/
def tableAfterPlayers (p : Player) (t : Finset ℕ) : Finset ℕ :=
  let t1 := match p.obtain_last_prime with
    | some lp => if lp ∈ t then t.erase lp else t
    | none => t
  match p.obtain_last_composite with
    | some lc => if lc ∈ t1 then t1.erase lc else t1
    | none => t1

/-- Body of `Game.update_players`, combining the two effects above;
returns the new player pair (acting player written back at the current
index) and the new table. -/
def Game.new_players_table (g : Game) (cards : Finset ℕ) : (Player × Player) × Finset ℕ :=
  let p1 := g.player g.current
  let p2 := g.player ((g.current + 1) % 2)
  let pq := moveHands cards p1 p2
  (writePlayers g.current pq.1 pq.2, tableAfterPlayers p1 g.table)

/-- Source `Game.update_players` as a state transformer. -/
def Game.update_players (g : Game) (cards : Finset ℕ) : Game :=
  { g with players := (g.new_players_table cards).1, table := (g.new_players_table cards).2 }

/-- Body of `Game.update_table` on the already-updated acting player `p`
and opponent `q`: per played card, remove it from the table if present
and, for a non-capture, add it back (discard); then add the last prime
and last composite of both players, if any. -/
def tableAfterMove (cards : Finset ℕ) (p q : Player) (t : Finset ℕ) : Finset ℕ :=
  let t1 := (setList cards).foldl
    (fun t c =>
      let t' := if c ∈ t then t.erase c else t
      if cards.card ≠ 3 then insert c t' else t')
    t
  let t2 := match p.obtain_last_prime with | some lp => insert lp t1 | none => t1
  let t3 := match p.obtain_last_composite with | some lc => insert lc t2 | none => t2
  let t4 := match q.obtain_last_prime with | some lp => insert lp t3 | none => t3
  match q.obtain_last_composite with | some lc => insert lc t4 | none => t4

/-- Source `Game.update_table`'s table value. -/
def Game.new_table (g : Game) (cards : Finset ℕ) : Finset ℕ :=
  tableAfterMove cards (g.player g.current) (g.player ((g.current + 1) % 2)) g.table

/-- Source `Game.update_table` as a state transformer. -/
def Game.update_table (g : Game) (cards : Finset ℕ) : Game :=
  { g with table := g.new_table cards }

/-- The player/table mutation shared by `Game.update` and the body of the
`Game.simulate` loop: `update_players` followed by `update_table`. -/
def Game.apply_move (g : Game) (cards : Finset ℕ) : Game :=
  (g.update_players cards).update_table cards

/-- Source `Game.update`: apply a move, accumulate the signed payoff into `u`,
advance the turn, flip the active player and rebuild the move table. -/
def Game.update (g : Game) (move : Finset ℕ) (payoff : ℤ) : Game :=
  let g1 := g.apply_move move
  let gain : ℤ := if g1.first = g1.current then 1 else -1
  let g2 := { g1 with
    u := g1.u + gain * payoff
    turn := g1.turn + 1
    current := if g1.current = 0 then 1 else 0 }
  { g2 with playable_sets := g2.find_playable_sets }

/-- Source `GameState.__init__` applied to the current state plus the trial
move: a snapshot of all mutable fields. -/
def Game.snapshot (g : Game) (played_set : Finset ℕ) (played_payoff : ℤ) : GameState :=
  ⟨g.players, g.table, g.u, g.turn, g.current, g.playable_sets, played_set, played_payoff⟩

/-- Source `Game.rollback`: restore players, table, `u`, turn, current player
and the playable-move table from a snapshot. -/
def Game.rollback (g : Game) (gs : GameState) : Game :=
  { g with
    players := gs.players
    table := gs.table
    u := gs.u
    turn := gs.turn
    current := gs.current
    playable_sets := gs.playable_sets }

/-- Source `Game.greedy_play`: highest-payoff playable move, with a random
singleton fallback; the random card is supplied as `pick`. -/
def Game.greedy_play (g : Game) (pick : ℕ) : Finset ℕ × ℤ :=
  let p := g.player g.current
  g.playable_sets.foldl
    (fun best kv => if p.can_play_move kv.1 ∧ best.2 < kv.2 then kv else best)
    ({pick}, 0)

/-- Body of the `Game.simulate` while-loop for a player following the
greedy strategy; `choice` models `random.choice` over the current hand. -/
def Game.sim_step_greedy (choice : Finset ℕ → ℕ) (g : Game) : Game :=
  let pr := g.greedy_play (choice (g.player g.current).hand)
  let g1 := g.apply_move pr.1
  let gain : ℤ := if g1.first = g1.current then 1 else -1
  let g2 := { g1 with
    u := g1.u + gain * pr.2
    turn_payoffs := g1.turn_payoffs ++ [g1.u + gain * pr.2]
    turn := g1.turn + 1
    current := if g1.current = 0 then 1 else 0 }
  { g2 with playable_sets := g2.find_playable_sets }

/-- Source `Game.simulate` with both strategies greedy, modelled with explicit
fuel: `none` when the while-loop is still running after `fuel` turns,
otherwise the returned `(first, winner, u)` triple. -/
def Game.simulate_greedy (choice : Finset ℕ → ℕ) : ℕ → Game → Option (ℕ × ℤ × ℤ)
  | 0, g => if g.is_over then some (g.first, g.get_winner, g.u) else none
  | fuel + 1, g =>
    if g.is_over then some (g.first, g.get_winner, g.u)
    else Game.simulate_greedy choice fuel (Game.sim_step_greedy choice g)

/-- Result of one `Game.minimax` call: the selected move and its search
value, together with the final game state and snapshot list (the Python
method mutates `self` and `game_states` in place). -/
structure MMRes where
  move : Finset ℕ
  pay : XInt
  game : Game
  states : List GameState
deriving DecidableEq

/-- The maximizing-player loop of `Game.minimax` over the remaining
playable-set entries; `recur` is the recursive call at the next depth.
Per playable entry: initialize the move on first use, push a snapshot,
apply the move, recurse, keep the strictly greatest `child + v`, pop the
snapshot and roll back, then update `alpha` and stop on `beta <= alpha`. -/
def mmLoopMax (recur : Game → List GameState → XInt → XInt → MMRes) :
    List (Finset ℕ × ℤ) → Game → List GameState → Finset ℕ → XInt → XInt → XInt → MMRes
  | [], g, states, mmove, mpay, _, _ => ⟨mmove, mpay, g, states⟩
  | (k, v) :: rest, g, states, mmove, mpay, alpha, beta =>
    let p := g.player g.current
    if p.can_play_move k then
      let mmove1 := if mmove = ∅ then k else mmove
      let gs := g.snapshot k v
      let states1 := states ++ [gs]
      let g1 := g.update k v
      let r := recur g1 states1 alpha beta
      let pay := r.pay.addInt v
      let mmove2 := if mpay.ltX pay then k else mmove1
      let mpay2 := if mpay.ltX pay then pay else mpay
      let gs2 := r.states.getLastD default
      let states2 := r.states.dropLast
      let g2 := r.game.rollback gs2
      let alpha1 := alpha.maxX mpay2
      if beta.leX alpha1 then ⟨mmove2, mpay2, g2, states2⟩
      else mmLoopMax recur rest g2 states2 mmove2 mpay2 alpha1 beta
    else mmLoopMax recur rest g states mmove mpay alpha beta

/-- The minimizing-player loop of `Game.minimax`: mirror image with
`child - v`, strictly-least selection and `beta` updates. -/
def mmLoopMin (recur : Game → List GameState → XInt → XInt → MMRes) :
    List (Finset ℕ × ℤ) → Game → List GameState → Finset ℕ → XInt → XInt → XInt → MMRes
  | [], g, states, mmove, mpay, _, _ => ⟨mmove, mpay, g, states⟩
  | (k, v) :: rest, g, states, mmove, mpay, alpha, beta =>
    let p := g.player g.current
    if p.can_play_move k then
      let mmove1 := if mmove = ∅ then k else mmove
      let gs := g.snapshot k v
      let states1 := states ++ [gs]
      let g1 := g.update k v
      let r := recur g1 states1 alpha beta
      let pay := r.pay.subInt v
      let mmove2 := if pay.ltX mpay then k else mmove1
      let mpay2 := if pay.ltX mpay then pay else mpay
      let gs2 := r.states.getLastD default
      let states2 := r.states.dropLast
      let g2 := r.game.rollback gs2
      let beta1 := beta.minX mpay2
      if beta1.leX alpha then ⟨mmove2, mpay2, g2, states2⟩
      else mmLoopMin recur rest g2 states2 mmove2 mpay2 alpha beta1
    else mmLoopMin recur rest g states mmove mpay alpha beta

/-- Source `Game.minimax`, recursion on explicit fuel; with fuel
`depth - len(game_states)` it coincides with the Python recursion, whose
depth is bounded because every recursive call lengthens `game_states`.
Terminal states (game over or depth reached) yield `({}, 0)`; otherwise
`turn % 2 = 0` selects the maximizing loop, seeded with `-inf`, and the
odd turns the minimizing loop, seeded with `+inf`. -/
def minimaxAux : ℕ → Game → List GameState → XInt → XInt → MMRes
  | 0, g, states, _, _ => ⟨∅, .fin 0, g, states⟩
  | fuel + 1, g, states, alpha, beta =>
    if g.is_over = true ∨ g.depth ≤ states.length then ⟨∅, .fin 0, g, states⟩
    else if g.turn % 2 = 0 then
      mmLoopMax (minimaxAux fuel) g.playable_sets g states ∅ .negInf alpha beta
    else
      mmLoopMin (minimaxAux fuel) g.playable_sets g states ∅ .posInf alpha beta

/-- Source `Game.minimax` at its call interface. -/
def Game.minimax (g : Game) (game_states : List GameState) (alpha beta : XInt) : MMRes :=
  minimaxAux (g.depth - game_states.length) g game_states alpha beta

/-- Source `Game.minimax_play`: top-level search seeded with an empty snapshot
list and `(-inf, +inf)`; the selected move's payoff is recomputed against
the real current state. -/
def Game.minimax_play (g : Game) : Finset ℕ × ℤ :=
  let r := g.minimax [] .negInf .posInf
  (r.move, g.calculate_move_payoff r.move)

/-- Modelled from the spec: the plain, unpruned minimax used as the
brute-force cross-check for the alpha-beta search — identical move-table
iteration order, identical strictly-greater/strictly-less tie-keeping
rule and identical terminal default, with no `alpha`/`beta` bookkeeping
and no pruning break.  Maximizing loop. -/
def mmLoopMaxNP (recur : Game → List GameState → MMRes) :
    List (Finset ℕ × ℤ) → Game → List GameState → Finset ℕ → XInt → MMRes
  | [], g, states, mmove, mpay => ⟨mmove, mpay, g, states⟩
  | (k, v) :: rest, g, states, mmove, mpay =>
    let p := g.player g.current
    if p.can_play_move k then
      let mmove1 := if mmove = ∅ then k else mmove
      let gs := g.snapshot k v
      let states1 := states ++ [gs]
      let g1 := g.update k v
      let r := recur g1 states1
      let pay := r.pay.addInt v
      let mmove2 := if mpay.ltX pay then k else mmove1
      let mpay2 := if mpay.ltX pay then pay else mpay
      let gs2 := r.states.getLastD default
      let states2 := r.states.dropLast
      let g2 := r.game.rollback gs2
      mmLoopMaxNP recur rest g2 states2 mmove2 mpay2
    else mmLoopMaxNP recur rest g states mmove mpay

/-- Modelled from the spec: minimizing loop of the unpruned cross-check
minimax. -/
def mmLoopMinNP (recur : Game → List GameState → MMRes) :
    List (Finset ℕ × ℤ) → Game → List GameState → Finset ℕ → XInt → MMRes
  | [], g, states, mmove, mpay => ⟨mmove, mpay, g, states⟩
  | (k, v) :: rest, g, states, mmove, mpay =>
    let p := g.player g.current
    if p.can_play_move k then
      let mmove1 := if mmove = ∅ then k else mmove
      let gs := g.snapshot k v
      let states1 := states ++ [gs]
      let g1 := g.update k v
      let r := recur g1 states1
      let pay := r.pay.subInt v
      let mmove2 := if pay.ltX mpay then k else mmove1
      let mpay2 := if pay.ltX mpay then pay else mpay
      let gs2 := r.states.getLastD default
      let states2 := r.states.dropLast
      let g2 := r.game.rollback gs2
      mmLoopMinNP recur rest g2 states2 mmove2 mpay2
    else mmLoopMinNP recur rest g states mmove mpay

/-- Modelled from the spec: the unpruned cross-check minimax, same fuel
discipline as `minimaxAux`. -/
def minimaxNPAux : ℕ → Game → List GameState → MMRes
  | 0, g, states => ⟨∅, .fin 0, g, states⟩
  | fuel + 1, g, states =>
    if g.is_over = true ∨ g.depth ≤ states.length then ⟨∅, .fin 0, g, states⟩
    else if g.turn % 2 = 0 then
      mmLoopMaxNP (minimaxNPAux fuel) g.playable_sets g states ∅ .negInf
    else
      mmLoopMinNP (minimaxNPAux fuel) g.playable_sets g states ∅ .posInf

/-- Modelled from the spec: call interface of the unpruned minimax. -/
def Game.minimaxNP (g : Game) (game_states : List GameState) : MMRes :=
  minimaxNPAux (g.depth - game_states.length) g game_states

/-- Python `list.pop()`: the last element and the remaining list, or
`none` on an empty list (an `IndexError` in Python). -/
def listPop (l : List ℕ) : Option (ℕ × List ℕ) :=
  match l.getLast? with
  | some a => some (a, l.dropLast)
  | none => none

/-- Source `Player.min_hand` with the Python `ValueError` on an empty set
modelled as `none`. -/
def minHand (s : Finset ℕ) : Option ℕ := (setList s).head?

/-- The dealing loop of `Game.deal_cards`: `num_hand` times, pop a card
from the end of the shuffled deck for player A, then one for player B. -/
def dealLoop : ℕ → List ℕ → Finset ℕ → Finset ℕ → Option (List ℕ × Finset ℕ × Finset ℕ)
  | 0, cards, hA, hB => some (cards, hA, hB)
  | n + 1, cards, hA, hB => do
    let (ca, cards1) ← listPop cards
    let (cb, cards2) ← listPop cards1
    dealLoop n cards2 (insert ca hA) (insert cb hB)

/-- Source `Game.__init__` followed by `Game.reset`, with the shuffled deck
passed explicitly (modelling `random.shuffle` of `range(2, num_cards+2)`).
`none` models fatal construction failure: the `sys.exit` on an incoherent
configuration, and the uncaught exceptions from popping or taking the
minimum of an empty collection. -/
def mkGame (num_cards num_hand num_table : ℕ) (change_first : Bool) (depth : ℕ)
    (deck : List ℕ) : Option Game :=
  if num_cards ≠ 2 * num_hand + num_table then none
  else do
    let (rest, hA, hB) ← dealLoop num_hand deck ∅ ∅
    let first ←
      if change_first then do
        let minA ← minHand hA
        let minB ← minHand hB
        pure (if minA < minB then 0 else 1)
      else pure 0
    let g0 : Game :=
      ⟨num_cards, num_hand, num_table, change_first, depth, 1, 0,
        (⟨hA, [], []⟩, ⟨hB, [], []⟩), rest.toFinset, first, first, [], []⟩
    pure { g0 with playable_sets := g0.find_playable_sets }

/-! ## Concrete states, invariants and specification-side definitions -/

/-- A concrete non-terminal state (active player's hand empty, opponent's
not, empty move table) on which `minimax` is claimed to return
`(emptyMove, 0)` but actually returns the `float("-inf")` seed. -/
def noPlayGame : Game :=
  ⟨4, 1, 2, true, 1, 2, 0, (⟨∅, [], []⟩, ⟨{2}, [], []⟩), ∅, 0, 0, [], []⟩

/-- A configuration-only game value used to exercise the move generator. -/
def genGame : Game :=
  ⟨10, 4, 2, true, 1, 1, 0, (⟨∅, [], []⟩, ⟨∅, [], []⟩), ∅, 0, 0, [], []⟩

/-- The per-card "obtained" leg of the scoring rule as the spec words it:
2 for a prime absent from the acting player's prime stack, else 1 for a
composite absent from the acting player's composite stack, else 0. -/
def obtained_leg (p1 : Player) (c : ℕ) : ℤ :=
  if is_prime c = true ∧ p1.prime_contains c = false then PRIME_SCORE
  else if is_prime c = false ∧ p1.composite_contains c = false then COMPOSITE_SCORE
  else 0

/-- The per-card "stolen" leg: 2 for a prime already in the opponent's
prime stack, else 1 for a composite already in the opponent's composite
stack, else 0; evaluated independently of the obtained leg. -/
def stolen_leg (p2 : Player) (c : ℕ) : ℤ :=
  if is_prime c = true ∧ p2.prime_contains c = true then PRIME_SCORE
  else if is_prime c = false ∧ p2.composite_contains c = true then COMPOSITE_SCORE
  else 0

/-- A freshly dealt 4-card configuration: hands A = {5}, B = {4}, table
{2, 3}, player A first and current. -/
def dealtGameBase : Game :=
  ⟨4, 1, 2, true, 1, 1, 0, (⟨{5}, [], []⟩, ⟨{4}, [], []⟩), {2, 3}, 0, 0, [], []⟩

/-- Source `dealtGameBase` with its playable-move table rebuilt, as after
`Game.reset`. -/
def dealtGame : Game :=
  { dealtGameBase with playable_sets := dealtGameBase.find_playable_sets }

/-- A dealt `num_cards = 4, num_hand = 1, num_table = 2` configuration
for the pruned-vs-unpruned cross-check: hands A = {5}, B = {4}, table
{2, 3}; the lower minimum 4 makes B the first and current player; search
depth 3. -/
def crossGameBase : Game :=
  ⟨4, 1, 2, true, 3, 1, 0, (⟨{5}, [], []⟩, ⟨{4}, [], []⟩), {2, 3}, 1, 1, [], []⟩

/-- Source `crossGameBase` with its playable-move table rebuilt, as after
`Game.reset`. -/
def crossGame : Game :=
  { crossGameBase with playable_sets := crossGameBase.find_playable_sets }

/-- Remove a card from a stack when the predicate selects its type. -/
def selErase (pr : ℕ → Bool) (l : List ℕ) (c : ℕ) : List ℕ :=
  if pr c = true then l.erase c else l

/-- Push a card onto a stack (removing an earlier occurrence first) when
the predicate selects its type. -/
def selPush (pr : ℕ → Bool) (l : List ℕ) (c : ℕ) : List ℕ :=
  if pr c = true then l.erase c ++ [c] else l

/-- Negated primality, the selector of the composite stacks. -/
def notPrime (c : ℕ) : Bool := !is_prime c

/-- Well-formedness of a (acting player, opponent, table) triple: the
hands are disjoint from each other, from the table and from all four
capture stacks; the stacks hold no duplicates, hold only cards of their
type, and the two players' same-type stacks are disjoint.  The table may
overlap the stacks: the stack tops are deliberately kept on the table. -/
structure PairInv (p q : Player) (t : Finset ℕ) : Prop where
  hands_disj : ∀ c ∈ p.hand, c ∉ q.hand
  hand_p_table : ∀ c ∈ p.hand, c ∉ t
  hand_q_table : ∀ c ∈ q.hand, c ∉ t
  hand_p_stacks : ∀ c ∈ p.hand,
    ¬(c ∈ p.primes ∨ c ∈ p.composites ∨ c ∈ q.primes ∨ c ∈ q.composites)
  hand_q_stacks : ∀ c ∈ q.hand,
    ¬(c ∈ p.primes ∨ c ∈ p.composites ∨ c ∈ q.primes ∨ c ∈ q.composites)
  p_primes_nodup : p.primes.Nodup
  p_comps_nodup : p.composites.Nodup
  q_primes_nodup : q.primes.Nodup
  q_comps_nodup : q.composites.Nodup
  p_primes_prime : ∀ c ∈ p.primes, is_prime c = true
  p_comps_comp : ∀ c ∈ p.composites, is_prime c = false
  q_primes_prime : ∀ c ∈ q.primes, is_prime c = true
  q_comps_comp : ∀ c ∈ q.composites, is_prime c = false
  primes_cross : ∀ c ∈ p.primes, c ∉ q.primes
  comps_cross : ∀ c ∈ p.composites, c ∉ q.composites

/-- Well-formedness of a full game state: a valid current/first index,
the board invariant on the two players and the table, and a playable-move
table that is the one recomputed from the state. -/
structure StateInv (g : Game) : Prop where
  cur01 : g.current = 0 ∨ g.current = 1
  first01 : g.first = 0 ∨ g.first = 1
  board : PairInv g.players.1 g.players.2 g.table
  ps_eq : g.playable_sets = g.find_playable_sets

/-- The shapes a move handed to the turn engine can take, relative to the
acting player's hand and the table: a singleton discard from the hand, or
a 3-card capture assembled from two distinct table cards and a derived
third card held in the hand. -/
def PairMove (p : Player) (t : Finset ℕ) (m : Finset ℕ) : Prop :=
  (∃ c, c ∈ p.hand ∧ m = {c}) ∨
  (∃ c1 c2 c3, c1 ∈ t ∧ c2 ∈ t ∧ c1 ≠ c2 ∧ m = insert c1 (insert c2 {c3}) ∧
    m.card = 3 ∧ c3 ∈ p.hand)

/-- Source `PairMove` for the acting player of a game state. -/
def GoodMove (g : Game) (m : Finset ℕ) : Prop :=
  PairMove (g.player g.current) g.table m

/-- A freshly dealt `num_cards = 10, num_hand = 4, num_table = 2` state:
four cards in each hand, hands and table pairwise disjoint, empty capture
stacks, the first player about to act, and a rebuilt move table. -/
@[reducible] def Dealt1042 (g : Game) : Prop :=
  g.num_cards = 10 ∧ g.num_hand = 4 ∧ g.num_table = 2 ∧
  g.players.1.hand.card = 4 ∧ g.players.2.hand.card = 4 ∧
  g.players.1.primes = [] ∧ g.players.1.composites = [] ∧
  g.players.2.primes = [] ∧ g.players.2.composites = [] ∧
  (∀ c ∈ g.players.1.hand, c ∉ g.players.2.hand) ∧
  (∀ c ∈ g.players.1.hand, c ∉ g.table) ∧
  (∀ c ∈ g.players.2.hand, c ∉ g.table) ∧
  (g.current = 0 ∨ g.current = 1) ∧ g.first = g.current ∧
  g.playable_sets = g.find_playable_sets


/-- The random-card oracle used by the witness: the smallest card. -/
def pickLow (s : Finset ℕ) : ℕ := (setList s).headD 0

/-- A concrete dealt 10/4/2 state: hands {11,9,7,5} and {10,8,6,4},
table {2, 3}; the lower minimum 4 makes B first and current. -/
def simGameBase : Game :=
  ⟨10, 4, 2, true, 1, 1, 0,
    (⟨{11, 9, 7, 5}, [], []⟩, ⟨{10, 8, 6, 4}, [], []⟩), {2, 3}, 1, 1, [], []⟩

/-- Source `simGameBase` with its playable-move table rebuilt, as after
`Game.reset`. -/
def simGame : Game :=
  { simGameBase with playable_sets := simGameBase.find_playable_sets }

/-! ## Helper lemmas -/
theorem dealt_inv (g : Game) (hd : Dealt1042 g) :
    StateInv g ∧ (g.player g.current).hand.card = 4 ∧
      (g.player ((g.current + 1) % 2)).hand.card = 4 := by
  obtain ⟨_, _, _, hA, hB, hp1, hc1, hp2, hc2, hdj, hat, hbt, hcur, hfst, hps⟩ := hd
  have hinv : StateInv g := by
    refine ⟨hcur, by rcases hcur with h | h <;> rw [hfst, h] <;> simp, ?_, hps⟩
    refine ⟨hdj, hat, hbt, ?_, ?_, ?_, ?_, ?_, ?_, ?_, ?_, ?_, ?_, ?_, ?_⟩ <;>
      simp [hp1, hc1, hp2, hc2]
  refine ⟨hinv, ?_, ?_⟩ <;>
    rcases hcur with h | h <;> rw [h] <;> simp only [Game.player] <;> norm_num <;> omega


theorem rollback_update (g : Game) (k : Finset ℕ) (v : ℤ) :
    (g.update k v).rollback (g.snapshot k v) = g := rfl

theorem getLastD_concat_eq (l : List GameState) (a d : GameState) :
    (l ++ [a]).getLastD d = a := by
  induction l with
  | nil => rfl
  | cons x xs ih => simpa [List.getLastD] using ih

theorem mmLoopMax_frame (recur : Game → List GameState → XInt → XInt → MMRes)
    (hrec : ∀ g s a b, (recur g s a b).game = g ∧ (recur g s a b).states = s) :
    ∀ (items : List (Finset ℕ × ℤ)) (g : Game) (states : List GameState)
      (mmove : Finset ℕ) (mpay alpha beta : XInt),
      (mmLoopMax recur items g states mmove mpay alpha beta).game = g ∧
      (mmLoopMax recur items g states mmove mpay alpha beta).states = states := by
  intro items
  induction items with
  | nil => intro g states mmove mpay alpha beta; exact ⟨rfl, rfl⟩
  | cons kv rest ih =>
    intro g states mmove mpay alpha beta
    obtain ⟨k, v⟩ := kv
    obtain ⟨h1, h2⟩ := hrec (g.update k v) (states ++ [g.snapshot k v]) alpha beta
    simp only [mmLoopMax, h1, h2, getLastD_concat_eq, List.dropLast_concat, rollback_update]
    by_cases hcp : (g.player g.current).can_play_move k = true
    · simp only [hcp, if_true]
      by_cases hbr :
          (beta.leX (alpha.maxX (if mpay.ltX ((recur (g.update k v)
            (states ++ [g.snapshot k v]) alpha beta).pay.addInt v) then
              (recur (g.update k v) (states ++ [g.snapshot k v]) alpha beta).pay.addInt v
            else mpay))) = true
      · simp [hbr]
      · simp only [hbr, if_false, Bool.false_eq_true]
        exact ih g states _ _ _ beta
    · simp only [hcp, Bool.false_eq_true, if_false]
      exact ih g states mmove mpay alpha beta

theorem mmLoopMin_frame (recur : Game → List GameState → XInt → XInt → MMRes)
    (hrec : ∀ g s a b, (recur g s a b).game = g ∧ (recur g s a b).states = s) :
    ∀ (items : List (Finset ℕ × ℤ)) (g : Game) (states : List GameState)
      (mmove : Finset ℕ) (mpay alpha beta : XInt),
      (mmLoopMin recur items g states mmove mpay alpha beta).game = g ∧
      (mmLoopMin recur items g states mmove mpay alpha beta).states = states := by
  intro items
  induction items with
  | nil => intro g states mmove mpay alpha beta; exact ⟨rfl, rfl⟩
  | cons kv rest ih =>
    intro g states mmove mpay alpha beta
    obtain ⟨k, v⟩ := kv
    obtain ⟨h1, h2⟩ := hrec (g.update k v) (states ++ [g.snapshot k v]) alpha beta
    simp only [mmLoopMin, h1, h2, getLastD_concat_eq, List.dropLast_concat, rollback_update]
    by_cases hcp : (g.player g.current).can_play_move k = true
    · simp only [hcp, if_true]
      by_cases hbr :
          ((beta.minX (if ((recur (g.update k v)
            (states ++ [g.snapshot k v]) alpha beta).pay.subInt v).ltX mpay then
              (recur (g.update k v) (states ++ [g.snapshot k v]) alpha beta).pay.subInt v
            else mpay)).leX alpha) = true
      · simp [hbr]
      · simp only [hbr, if_false, Bool.false_eq_true]
        exact ih g states _ _ alpha _
    · simp only [hcp, Bool.false_eq_true, if_false]
      exact ih g states mmove mpay alpha beta

theorem minimaxAux_frame (fuel : ℕ) :
    ∀ (g : Game) (states : List GameState) (alpha beta : XInt),
      (minimaxAux fuel g states alpha beta).game = g ∧
      (minimaxAux fuel g states alpha beta).states = states := by
  induction fuel with
  | zero => intro g states alpha beta; exact ⟨rfl, rfl⟩
  | succ d ih =>
    intro g states alpha beta
    simp only [minimaxAux]
    by_cases hterm : (g.is_over = true ∨ g.depth ≤ states.length)
    · simp [hterm]
    · simp only [hterm, if_false]
      by_cases hpar : g.turn % 2 = 0
      · simp only [hpar, if_true]
        exact mmLoopMax_frame (minimaxAux d) ih g.playable_sets g states ∅ .negInf alpha beta
      · simp only [hpar, if_false]
        exact mmLoopMin_frame (minimaxAux d) ih g.playable_sets g states ∅ .posInf alpha beta

/-! ## C1: snapshot / update / rollback round trip -/

/-- C1: for every game state and every move in the playable-move table,
taking a `GameState` snapshot, applying the move via `update` and rolling
back restores the entire state — both players' hands and stacks, the
table, the signed payoff `u`, the turn counter, the active-player index
and the playable-move table — exactly. -/
theorem C1_update_rollback_restores (g : Game) (k : Finset ℕ) (v : ℤ)
    (_hmem : (k, v) ∈ g.playable_sets) :
    (g.update k v).rollback (g.snapshot k v) = g :=
  rollback_update g k v

/-- Witness for C1 at a concrete dealt state and its capture move. -/
theorem C1_witness :
    let gb : Game :=
      ⟨4, 1, 2, true, 1, 1, 0, (⟨{5}, [], []⟩, ⟨{4}, [], []⟩), {2, 3}, 0, 0, [], []⟩
    let g : Game := { gb with playable_sets := gb.find_playable_sets }
    ({2, 3, 5}, (6 : ℤ)) ∈ g.playable_sets ∧
      (g.update {2, 3, 5} 6).rollback (g.snapshot {2, 3, 5} 6) = g := by
  refine ⟨by decide, C1_update_rollback_restores _ _ _ (by decide)⟩

/-! ## C2: minimax restores the game state and the snapshot list -/

/-- C2: a `minimax` call leaves the entire game state and the snapshot
list exactly as it found them, on every exit path — each loop iteration
pops its snapshot and rolls back before the alpha/beta cutoff test, so
the undo also happens when the iteration ends through the pruning break. -/
theorem C2_minimax_preserves_state (g : Game) (game_states : List GameState)
    (alpha beta : XInt) :
    (g.minimax game_states alpha beta).game = g ∧
      (g.minimax game_states alpha beta).states = game_states :=
  minimaxAux_frame (g.depth - game_states.length) g game_states alpha beta

/-! ## C3: minimax result when no move is playable -/

theorem mmLoopMax_no_playable (recur : Game → List GameState → XInt → XInt → MMRes) :
    ∀ (items : List (Finset ℕ × ℤ)) (g : Game) (states : List GameState)
      (mmove : Finset ℕ) (mpay alpha beta : XInt),
      (∀ kv ∈ items, (g.player g.current).can_play_move kv.1 = false) →
      mmLoopMax recur items g states mmove mpay alpha beta = ⟨mmove, mpay, g, states⟩ := by
  intro items
  induction items with
  | nil => intro g states mmove mpay alpha beta _; rfl
  | cons kv rest ih =>
    intro g states mmove mpay alpha beta h
    obtain ⟨k, v⟩ := kv
    have hk := h (k, v) (List.mem_cons_self _ _)
    simp only [mmLoopMax, hk, Bool.false_eq_true, if_false]
    exact ih g states mmove mpay alpha beta (fun kv hkv => h kv (List.mem_cons_of_mem _ hkv))

theorem mmLoopMin_no_playable (recur : Game → List GameState → XInt → XInt → MMRes) :
    ∀ (items : List (Finset ℕ × ℤ)) (g : Game) (states : List GameState)
      (mmove : Finset ℕ) (mpay alpha beta : XInt),
      (∀ kv ∈ items, (g.player g.current).can_play_move kv.1 = false) →
      mmLoopMin recur items g states mmove mpay alpha beta = ⟨mmove, mpay, g, states⟩ := by
  intro items
  induction items with
  | nil => intro g states mmove mpay alpha beta _; rfl
  | cons kv rest ih =>
    intro g states mmove mpay alpha beta h
    obtain ⟨k, v⟩ := kv
    have hk := h (k, v) (List.mem_cons_self _ _)
    simp only [mmLoopMin, hk, Bool.false_eq_true, if_false]
    exact ih g states mmove mpay alpha beta (fun kv hkv => h kv (List.mem_cons_of_mem _ hkv))

/-- Counterexample to C3: at `noPlayGame` — not over, depth bound not
reached, the playable-move table is legitimately the one recomputed from
the state, and the active player can play no move in it — `minimax`
returns the empty move paired with `-inf`, not with payoff `0`. -/
theorem C3_counterexample :
    (noPlayGame.is_over = false ∧ 0 < noPlayGame.depth ∧
      noPlayGame.playable_sets = noPlayGame.find_playable_sets ∧
      ∀ kv ∈ noPlayGame.playable_sets,
        (noPlayGame.player noPlayGame.current).can_play_move kv.1 = false) ∧
    (noPlayGame.minimax [] .negInf .posInf).move = ∅ ∧
    (noPlayGame.minimax [] .negInf .posInf).pay ≠ .fin 0 := by
  decide

/-- C3 as amended: on a non-terminal state where the active player can
play no move in the playable-move table, `minimax` returns the empty
move paired with the untouched loop seed — `-inf` on a maximizing
(even) turn and `+inf` on a minimizing (odd) turn — not with payoff 0. -/
theorem C3_amended_no_playable_result (g : Game) (game_states : List GameState)
    (alpha beta : XInt) (hover : g.is_over = false)
    (hdepth : game_states.length < g.depth)
    (hplay : ∀ kv ∈ g.playable_sets,
      (g.player g.current).can_play_move kv.1 = false) :
    g.minimax game_states alpha beta =
      ⟨∅, if g.turn % 2 = 0 then .negInf else .posInf, g, game_states⟩ := by
  obtain ⟨d, hd⟩ : ∃ d, g.depth - game_states.length = d + 1 :=
    ⟨g.depth - game_states.length - 1, by omega⟩
  unfold Game.minimax
  rw [hd]
  have hterm : ¬ (g.is_over = true ∨ g.depth ≤ game_states.length) := by
    simp only [hover, Bool.false_eq_true, false_or]
    omega
  simp only [minimaxAux, hterm, if_false]
  by_cases hpar : g.turn % 2 = 0
  · simp only [hpar, if_true]
    exact mmLoopMax_no_playable _ _ _ _ _ _ _ _ hplay
  · simp only [hpar, if_false]
    exact mmLoopMin_no_playable _ _ _ _ _ _ _ _ hplay

/-- Witness for the amended C3 at the concrete state `noPlayGame`. -/
theorem C3_amended_witness :
    noPlayGame.minimax [] .negInf .posInf = ⟨∅, .negInf, noPlayGame, []⟩ := by
  have h := C3_amended_no_playable_result noPlayGame [] .negInf .posInf
    (by decide) (by decide) (by decide)
  simpa using h

/-! ## C6: derived third cards from a table pair -/

/-- C6: `find_playable_cards c1 c2` contains exactly those values among
`c1+c2`, `|c1-c2|`, `c1*c2`, `c1/c2` (when the division is exact) and
`c2/c1` (when exact) that lie in the card range `[2, num_cards+1]`. -/
theorem mem_ite_singleton {P : Prop} [Decidable P] {a x : ℕ} :
    (x ∈ if P then [a] else ([] : List ℕ)) ↔ P ∧ x = a := by
  split <;> simp_all

theorem C6_find_playable_cards_spec (g : Game) (c1 c2 x : ℕ)
    (_hc1 : 2 ≤ c1) (_hc2 : 2 ≤ c2) :
    x ∈ g.find_playable_cards c1 c2 ↔
      ((x = c1 + c2 ∨ x = ((c1 : ℤ) - (c2 : ℤ)).natAbs ∨ x = c1 * c2 ∨
          (c2 ∣ c1 ∧ x = c1 / c2) ∨ (c1 ∣ c2 ∧ x = c2 / c1)) ∧
        2 ≤ x ∧ x ≤ g.num_cards + 1) := by
  have hm1 : c1 % c2 = 0 ↔ c2 ∣ c1 := Nat.dvd_iff_mod_eq_zero.symm
  have hm2 : c2 % c1 = 0 ↔ c1 ∣ c2 := Nat.dvd_iff_mod_eq_zero.symm
  simp only [Game.find_playable_cards, List.mem_append, mem_ite_singleton]
  constructor
  · rintro ((((⟨hP, rfl⟩ | ⟨hP, rfl⟩) | ⟨hP, rfl⟩) | ⟨hP, rfl⟩) | ⟨hP, rfl⟩)
    · exact ⟨Or.inl rfl, by omega, by omega⟩
    · exact ⟨Or.inr (Or.inl rfl), by omega, by omega⟩
    · exact ⟨Or.inr (Or.inr (Or.inl rfl)), by omega, by omega⟩
    · exact ⟨Or.inr (Or.inr (Or.inr (Or.inl ⟨hm1.mp hP.2, rfl⟩))), by omega, by omega⟩
    · exact ⟨Or.inr (Or.inr (Or.inr (Or.inr ⟨hm2.mp hP.2, rfl⟩))), by omega, by omega⟩
  · rintro ⟨(rfl | rfl | rfl | ⟨hdvd, rfl⟩ | ⟨hdvd, rfl⟩), hlo, hhi⟩
    · exact Or.inl (Or.inl (Or.inl (Or.inl ⟨⟨by omega, by omega⟩, rfl⟩)))
    · exact Or.inl (Or.inl (Or.inl (Or.inr ⟨⟨by omega, by omega⟩, rfl⟩)))
    · exact Or.inl (Or.inl (Or.inr ⟨⟨by omega, by omega⟩, rfl⟩))
    · exact Or.inl (Or.inr ⟨⟨⟨by omega, by omega⟩, hm1.mpr hdvd⟩, rfl⟩)
    · exact Or.inr ⟨⟨⟨by omega, by omega⟩, hm2.mpr hdvd⟩, rfl⟩

/-- Witness for C6: at `num_cards = 10`, from the pair `(6, 3)` the value
`2 = 6 / 3` is derivable and indeed listed. -/
theorem C6_witness :
    (2 ∈ genGame.find_playable_cards 6 3 ↔
      ((2 = 6 + 3 ∨ 2 = ((6 : ℤ) - (3 : ℤ)).natAbs ∨ 2 = 6 * 3 ∨
          (3 ∣ 6 ∧ 2 = 6 / 3) ∨ (6 ∣ 3 ∧ 2 = 3 / 6)) ∧
        2 ≤ 2 ∧ 2 ≤ genGame.num_cards + 1)) ∧
      2 ∈ genGame.find_playable_cards 6 3 :=
  ⟨C6_find_playable_cards_spec genGame 6 3 2 (by decide) (by decide), by decide⟩

/-! ## C5 and C10: the scoring rule -/

theorem setList_nodup (s : Finset ℕ) : (setList s).Nodup :=
  (List.nodup_range _).filter _

theorem mem_setList {s : Finset ℕ} {x : ℕ} : x ∈ setList s ↔ x ∈ s := by
  simp only [setList, List.mem_filter, List.mem_range, decide_eq_true_eq]
  exact ⟨fun h => h.2,
    fun h => ⟨Nat.lt_succ_of_le (@Finset.le_sup ℕ ℕ _ _ s id x h), h⟩⟩

theorem setList_toFinset (s : Finset ℕ) : (setList s).toFinset = s :=
  Finset.ext fun x => by rw [List.mem_toFinset, mem_setList]

theorem setList_map_sum (s : Finset ℕ) (f : ℕ → ℤ) :
    ((setList s).map f).sum = ∑ c ∈ s, f c := by
  rw [← List.sum_toFinset f (setList_nodup s), setList_toFinset]

theorem payoff_body_step (p1 p2 : Player) (pay : ℤ) (c : ℕ) :
    (let is_pr := is_prime c
     let payoff1 :=
       if is_pr && !p1.prime_contains c then pay + PRIME_SCORE
       else if !is_pr && !p1.composite_contains c then pay + COMPOSITE_SCORE
       else pay
     if is_pr && p2.prime_contains c then payoff1 + PRIME_SCORE
     else if !is_pr && p2.composite_contains c then payoff1 + COMPOSITE_SCORE
     else payoff1) =
      pay + (obtained_leg p1 c + stolen_leg p2 c) := by
  simp only [obtained_leg, stolen_leg]
  cases h : is_prime c <;>
    cases h1 : p1.prime_contains c <;>
    cases h2 : p1.composite_contains c <;>
    cases h3 : p2.prime_contains c <;>
    cases h4 : p2.composite_contains c <;>
    simp <;> ring

theorem foldl_add_shift (f : ℕ → ℤ) :
    ∀ (l : List ℕ) (a : ℤ), l.foldl (fun pay c => pay + f c) a = a + (l.map f).sum := by
  intro l
  induction l with
  | nil => intro a; simp
  | cons x xs ih => intro a; simp only [List.foldl_cons, ih, List.map_cons, List.sum_cons]; ring

/-- The scoring rule in closed form: zero off 3-card sets, and the sum of
the two legs over the card set otherwise. -/
theorem calculate_move_payoff_eq (g : Game) (card_set : Finset ℕ) :
    g.calculate_move_payoff card_set =
      if card_set.card = 3 then
        ∑ c ∈ card_set,
          (obtained_leg (g.player g.current) c +
            stolen_leg (g.player ((g.current + 1) % 2)) c)
      else 0 := by
  unfold Game.calculate_move_payoff
  by_cases h3 : card_set.card = 3
  · simp only [h3, ne_eq, not_true_eq_false, if_false, if_true]
    rw [List.foldl_ext _
      (fun pay c => pay + (obtained_leg (g.player g.current) c +
        stolen_leg (g.player ((g.current + 1) % 2)) c)) 0
      (fun a b _ => payoff_body_step (g.player g.current) (g.player ((g.current + 1) % 2)) a b)]
    rw [foldl_add_shift, setList_map_sum]
    ring
  · simp [h3]

theorem obtained_leg_bounds (p : Player) (c : ℕ) :
    0 ≤ obtained_leg p c ∧ obtained_leg p c ≤ 2 := by
  unfold obtained_leg PRIME_SCORE COMPOSITE_SCORE
  by_cases h1 : is_prime c = true ∧ p.prime_contains c = false
  · simp [h1]
  · by_cases h2 : is_prime c = false ∧ p.composite_contains c = false
    · simp [h1, h2]
    · simp [h1, h2]

theorem stolen_leg_bounds (p : Player) (c : ℕ) :
    0 ≤ stolen_leg p c ∧ stolen_leg p c ≤ 2 := by
  unfold stolen_leg PRIME_SCORE COMPOSITE_SCORE
  by_cases h1 : is_prime c = true ∧ p.prime_contains c = true
  · simp [h1]
  · by_cases h2 : is_prime c = false ∧ p.composite_contains c = true
    · simp [h1, h2]
    · simp [h1, h2]

theorem calculate_move_payoff_nonneg (g : Game) (s : Finset ℕ) :
    0 ≤ g.calculate_move_payoff s := by
  rw [calculate_move_payoff_eq]
  split
  · exact Finset.sum_nonneg fun c _ =>
      add_nonneg (obtained_leg_bounds _ c).1 (stolen_leg_bounds _ c).1
  · exact le_refl 0

theorem calculate_move_payoff_le_twelve (g : Game) (s : Finset ℕ) :
    g.calculate_move_payoff s ≤ 12 := by
  rw [calculate_move_payoff_eq]
  split
  · rename_i h3
    calc ∑ c ∈ s, (obtained_leg (g.player g.current) c +
          stolen_leg (g.player ((g.current + 1) % 2)) c)
        ≤ ∑ _c ∈ s, (4 : ℤ) := Finset.sum_le_sum fun c _ => by
          have h1 := obtained_leg_bounds (g.player g.current) c
          have h2 := stolen_leg_bounds (g.player ((g.current + 1) % 2)) c
          omega
      _ = (s.card : ℤ) * 4 := by rw [Finset.sum_const, nsmul_eq_mul]
      _ = 12 := by rw [h3]; norm_num
  · omega

/-- C5: the payoff of any card set whose size is not 3 is 0; for a 3-card
set it is the sum over the cards of the "obtained" leg against the acting
player's stacks plus, independently, the "stolen" leg against the
opponent's stacks — a single card can score on both legs. -/
theorem C5_payoff_rule (g : Game) (card_set : Finset ℕ) :
    (card_set.card ≠ 3 → g.calculate_move_payoff card_set = 0) ∧
      (card_set.card = 3 →
        g.calculate_move_payoff card_set =
          ∑ c ∈ card_set,
            (obtained_leg (g.player g.current) c +
              stolen_leg (g.player ((g.current + 1) % 2)) c)) := by
  constructor
  · intro h; rw [calculate_move_payoff_eq]; simp [h]
  · intro h; rw [calculate_move_payoff_eq]; simp [h]

/-- Witness for C5: a 3-card move evaluated concretely (cards 2,3,4
against stacks holding 2 and 4 for the acting player and 3,5 for the
opponent scores 0 + 4 + 0), and a 2-card set scoring 0. -/
theorem C5_witness :
    let g : Game :=
      ⟨4, 1, 2, true, 1, 1, 0, (⟨∅, [2], [4]⟩, ⟨∅, [3, 5], []⟩), ∅, 0, 0, [], []⟩
    g.calculate_move_payoff {2, 3, 4} =
        ∑ c ∈ ({2, 3, 4} : Finset ℕ),
          (obtained_leg (g.player g.current) c +
            stolen_leg (g.player ((g.current + 1) % 2)) c) ∧
      g.calculate_move_payoff {2, 3} = 0 ∧ g.calculate_move_payoff {2, 3, 4} = 4 := by
  refine ⟨(C5_payoff_rule _ {2, 3, 4}).2 (by decide), (C5_payoff_rule _ {2, 3}).1 (by decide),
    by decide⟩

/-! ## Shape of the playable-move table -/

theorem dictInsert_mem {l : List (Finset ℕ × ℤ)} {k : Finset ℕ} {v : ℤ}
    {kv : Finset ℕ × ℤ} (h : kv ∈ dictInsert l k v) : kv ∈ l ∨ kv = (k, v) := by
  induction l with
  | nil =>
    simp only [dictInsert, List.mem_singleton] at h
    exact Or.inr h
  | cons x xs ih =>
    obtain ⟨k0, v0⟩ := x
    simp only [dictInsert] at h
    split at h
    · rename_i heq
      rcases List.mem_cons.mp h with h | h
      · exact Or.inr (by rw [h, heq])
      · exact Or.inl (List.mem_cons_of_mem _ h)
    · rcases List.mem_cons.mp h with h | h
      · exact Or.inl (h ▸ List.mem_cons_self _ _)
      · rcases ih h with h | h
        · exact Or.inl (List.mem_cons_of_mem _ h)
        · exact Or.inr h

theorem singles_fold_mem :
    ∀ (hl : List ℕ) (base : List (Finset ℕ × ℤ)) {kv : Finset ℕ × ℤ},
      kv ∈ hl.foldl (fun acc c => dictInsert acc {c} 0) base →
      kv ∈ base ∨ ∃ c ∈ hl, kv = ({c}, 0) := by
  intro hl
  induction hl with
  | nil => intro base kv h; exact Or.inl h
  | cons c rest ih =>
    intro base kv h
    rcases ih _ h with h | ⟨c0, hc0, rfl⟩
    · rcases dictInsert_mem h with h | h
      · exact Or.inl h
      · exact Or.inr ⟨c, List.mem_cons_self _ _, h⟩
    · exact Or.inr ⟨c0, List.mem_cons_of_mem _ hc0, rfl⟩

theorem tablePairs_mem :
    ∀ {l : List ℕ} {pr : ℕ × ℕ}, l.Nodup → pr ∈ tablePairs l →
      pr.1 ∈ l ∧ pr.2 ∈ l ∧ pr.1 ≠ pr.2 := by
  intro l
  induction l with
  | nil => intro pr _ h; simp [tablePairs] at h
  | cons c rest ih =>
    intro pr hnd h
    simp only [tablePairs, List.mem_append, List.mem_map] at h
    rcases h with ⟨c2, hc2, rfl⟩ | h
    · refine ⟨List.mem_cons_self _ _, List.mem_cons_of_mem _ hc2, fun heq => ?_⟩
      have heq2 : c = c2 := heq
      exact (List.nodup_cons.mp hnd).1 (heq2 ▸ hc2)
    · have hr := ih (List.nodup_cons.mp hnd).2 h
      exact ⟨List.mem_cons_of_mem _ hr.1, List.mem_cons_of_mem _ hr.2.1, hr.2.2⟩

theorem triple_fold_mem (g : Game) (c1 c2 : ℕ) :
    ∀ (cl : List ℕ) (acc : List (Finset ℕ × ℤ)) {kv : Finset ℕ × ℤ},
      kv ∈ cl.foldl
        (fun acc2 c3 =>
          if (insert c1 (insert c2 {c3}) : Finset ℕ).card = 3 then
            dictInsert acc2 (insert c1 (insert c2 {c3}))
              (g.calculate_move_payoff (insert c1 (insert c2 {c3})))
          else acc2) acc →
      kv ∈ acc ∨ ∃ c3, kv.1 = insert c1 (insert c2 {c3}) ∧ kv.1.card = 3 ∧
        kv.2 = g.calculate_move_payoff kv.1 := by
  intro cl
  induction cl with
  | nil => intro acc kv h; exact Or.inl h
  | cons c3 rest ih =>
    intro acc kv h
    rcases ih _ h with h | h
    · replace h : kv ∈
          (if (insert c1 (insert c2 {c3}) : Finset ℕ).card = 3 then
            dictInsert acc (insert c1 (insert c2 {c3}))
              (g.calculate_move_payoff (insert c1 (insert c2 {c3})))
          else acc) := h
      by_cases hcard : (insert c1 (insert c2 {c3}) : Finset ℕ).card = 3
      · rw [if_pos hcard] at h
        rcases dictInsert_mem h with h | h
        · exact Or.inl h
        · subst h
          exact Or.inr ⟨c3, rfl, hcard, rfl⟩
      · rw [if_neg hcard] at h
        exact Or.inl h
    · exact Or.inr h

theorem pairs_fold_mem (g : Game) :
    ∀ (prs : List (ℕ × ℕ)) (acc : List (Finset ℕ × ℤ)) {kv : Finset ℕ × ℤ},
      kv ∈ prs.foldl
        (fun acc pr =>
          (g.find_playable_cards pr.1 pr.2).foldl
            (fun acc2 c3 =>
              if (insert pr.1 (insert pr.2 {c3}) : Finset ℕ).card = 3 then
                dictInsert acc2 (insert pr.1 (insert pr.2 {c3}))
                  (g.calculate_move_payoff (insert pr.1 (insert pr.2 {c3})))
              else acc2) acc) acc →
      kv ∈ acc ∨ ∃ pr ∈ prs, ∃ c3, kv.1 = insert pr.1 (insert pr.2 {c3}) ∧
        kv.1.card = 3 ∧ kv.2 = g.calculate_move_payoff kv.1 := by
  intro prs
  induction prs with
  | nil => intro acc kv h; exact Or.inl h
  | cons pr rest ih =>
    intro acc kv h
    rcases ih _ h with h | ⟨pr0, hpr0, hrest⟩
    · rcases triple_fold_mem g pr.1 pr.2 _ _ h with h | ⟨c3, h1, h2, h3⟩
      · exact Or.inl h
      · exact Or.inr ⟨pr, List.mem_cons_self _ _, c3, h1, h2, h3⟩
    · exact Or.inr ⟨pr0, List.mem_cons_of_mem _ hpr0, hrest⟩

/-- Every entry of the rebuilt playable-move table is either a
zero-payoff singleton of a card in the active player's hand, or a 3-card
set assembled from two distinct table cards and a derived third card,
carrying its computed payoff. -/
theorem find_playable_sets_mem (g : Game) {kv : Finset ℕ × ℤ}
    (h : kv ∈ g.find_playable_sets) :
    (∃ c, c ∈ (g.player g.current).hand ∧ kv = ({c}, 0)) ∨
    (∃ c1 c2 c3, c1 ∈ g.table ∧ c2 ∈ g.table ∧ c1 ≠ c2 ∧
      kv.1 = insert c1 (insert c2 {c3}) ∧ kv.1.card = 3 ∧
      kv.2 = g.calculate_move_payoff kv.1) := by
  unfold Game.find_playable_sets Player.hand_list at h
  rcases singles_fold_mem _ _ h with h | ⟨c, hc, rfl⟩
  · rcases pairs_fold_mem g _ _ h with h | ⟨pr, hpr, c3, h1, h2, h3⟩
    · simp at h
    · have hm := tablePairs_mem (setList_nodup g.table) hpr
      exact Or.inr ⟨pr.1, pr.2, c3, mem_setList.mp hm.1, mem_setList.mp hm.2.1,
        hm.2.2, h1, h2, h3⟩
  · exact Or.inl ⟨c, mem_setList.mp hc, rfl⟩

/-- C10: `calculate_move_payoff` is non-negative, at most 12 on a 3-card
set, and no entry of the rebuilt playable-move table carries a negative
payoff. -/
theorem C10_payoff_nonneg_bounded (g : Game) (s : Finset ℕ) :
    (0 ≤ g.calculate_move_payoff s ∧ (s.card = 3 → g.calculate_move_payoff s ≤ 12)) ∧
      ∀ kv ∈ g.find_playable_sets, 0 ≤ kv.2 := by
  refine ⟨⟨calculate_move_payoff_nonneg g s,
    fun _ => calculate_move_payoff_le_twelve g s⟩, ?_⟩
  intro kv hkv
  rcases find_playable_sets_mem g hkv with ⟨c, _, rfl⟩ | ⟨c1, c2, c3, _, _, _, _, _, hv⟩
  · exact le_refl 0
  · rw [hv]
    exact calculate_move_payoff_nonneg g kv.1

/-- Witness for C10 on the dealt state `dealtGame` and its capture move. -/
theorem C10_witness :
    (({2, 3, 5} : Finset ℕ), (6 : ℤ)) ∈ dealtGame.find_playable_sets ∧
      (0 : ℤ) ≤ ((({2, 3, 5} : Finset ℕ), (6 : ℤ)).2) ∧
      0 ≤ dealtGame.calculate_move_payoff {2, 3, 5} ∧
      dealtGame.calculate_move_payoff {2, 3, 5} ≤ 12 :=
  ⟨by decide,
    (C10_payoff_nonneg_bounded dealtGame {2, 3, 5}).2 _ (by decide),
    (C10_payoff_nonneg_bounded dealtGame {2, 3, 5}).1.1,
    (C10_payoff_nonneg_bounded dealtGame {2, 3, 5}).1.2 (by decide)⟩

/-! ## C7: alpha-beta agrees with the unpruned cross-check -/

/-- C7: on the fixed configuration `num_cards = 4, num_hand = 1,
num_table = 2` (state `crossGame`, depth 3), the alpha-beta-pruned
minimax selects the same move and the same root value as the plain
unpruned minimax over the same move-table iteration order with the same
strict tie-keeping rule. -/
theorem C7_alphabeta_matches_unpruned :
    (crossGame.minimax [] .negInf .posInf).move = (crossGame.minimaxNP []).move ∧
      (crossGame.minimax [] .negInf .posInf).pay = (crossGame.minimaxNP []).pay := by
  decide

/-! ## C9: engine construction -/

/-- Counterexample to C9: the coherent configuration `num_cards = 2,
num_hand = 0, num_table = 2` (indeed `2 = 2*0 + 2`) nevertheless fails
construction fatally: with `change_first` enabled the first-player rule
takes the minimum of an empty hand (an uncaught `ValueError` in Python),
so no `Game` value is produced. -/
theorem C9_counterexample :
    2 = 2 * 0 + 2 ∧ mkGame 2 0 2 true 1 [2, 3] = none := by decide

theorem listPop_length (cards : List ℕ) (h : cards.length ≠ 0) :
    ∃ a t, listPop cards = some (a, t) ∧ t.length = cards.length - 1 := by
  match hc : cards.getLast? with
  | some a =>
    exact ⟨a, cards.dropLast, by simp [listPop, hc], by simp [List.length_dropLast]⟩
  | none =>
    rw [List.getLast?_eq_none_iff] at hc
    subst hc
    simp at h

theorem dealLoop_ok :
    ∀ (n : ℕ) (cards : List ℕ) (hA hB : Finset ℕ), 2 * n ≤ cards.length →
      ∃ rest hA2 hB2, dealLoop n cards hA hB = some (rest, hA2, hB2) ∧
        (1 ≤ n → hA2.Nonempty ∧ hB2.Nonempty) ∧
        (hA.Nonempty → hA2.Nonempty) ∧ (hB.Nonempty → hB2.Nonempty) := by
  intro n
  induction n with
  | zero =>
    intro cards hA hB _
    exact ⟨cards, hA, hB, rfl, fun h => absurd h (by omega), id, id⟩
  | succ m ih =>
    intro cards hA hB hlen
    obtain ⟨a, t, hpop, hlt⟩ := listPop_length cards (by omega)
    obtain ⟨b, t2, hpop2, hlt2⟩ := listPop_length t (by omega)
    obtain ⟨rest, hA2, hB2, hrun, h1, h2, h3⟩ := ih t2 (insert a hA) (insert b hB) (by omega)
    refine ⟨rest, hA2, hB2, ?_,
      fun _ => ⟨h2 (Finset.insert_nonempty a hA), h3 (Finset.insert_nonempty b hB)⟩,
      fun _ => h2 (Finset.insert_nonempty a hA),
      fun _ => h3 (Finset.insert_nonempty b hB)⟩
    simp [dealLoop, hpop, hpop2, hrun]

theorem minHand_isSome {s : Finset ℕ} (h : s.Nonempty) : ∃ m, minHand s = some m := by
  unfold minHand
  match hh : (setList s).head? with
  | some m => exact ⟨m, rfl⟩
  | none =>
    rw [List.head?_eq_none_iff] at hh
    obtain ⟨x, hx⟩ := h
    have hm := mem_setList.mpr hx
    rw [hh] at hm
    simp at hm

/-- C9 as amended: construction fails fatally on every incoherent
configuration (`num_cards ≠ 2*num_hand + num_table`); a coherent
configuration constructs successfully provided the deck has `num_cards`
cards and, when the `change_first` rule (which inspects the hand minima)
is enabled, each player is dealt at least one card — with `num_hand = 0`
and `change_first` the minimum of an empty hand makes construction fail
even though the configuration is coherent. -/
theorem C9_amended_construction (num_cards num_hand num_table : ℕ)
    (change_first : Bool) (depth : ℕ) (deck : List ℕ) :
    (num_cards ≠ 2 * num_hand + num_table →
      mkGame num_cards num_hand num_table change_first depth deck = none) ∧
    (num_cards = 2 * num_hand + num_table → deck.length = num_cards →
      (1 ≤ num_hand ∨ change_first = false) →
      ∃ g, mkGame num_cards num_hand num_table change_first depth deck = some g) := by
  constructor
  · intro hbad
    simp [mkGame, hbad]
  · intro hcoh hlen hok
    obtain ⟨rest, hA2, hB2, hrun, h1, _, _⟩ :=
      dealLoop_ok num_hand deck ∅ ∅ (by omega)
    have hcond : ¬ num_cards ≠ 2 * num_hand + num_table := by omega
    cases hcf : change_first with
    | false =>
      have hs : (mkGame num_cards num_hand num_table false depth deck).isSome = true := by
        simp [mkGame, hcond, hrun]
      exact Option.isSome_iff_exists.mp hs
    | true =>
      have hnh : 1 ≤ num_hand := by
        rcases hok with h | h
        · exact h
        · rw [hcf] at h; exact absurd h (by simp)
      obtain ⟨hne1, hne2⟩ := h1 hnh
      obtain ⟨mA, hmA⟩ := minHand_isSome hne1
      obtain ⟨mB, hmB⟩ := minHand_isSome hne2
      have hs : (mkGame num_cards num_hand num_table true depth deck).isSome = true := by
        simp [mkGame, hcond, hrun, hmA, hmB]
      exact Option.isSome_iff_exists.mp hs

/-- Witness for the amended C9: a coherent 4-card configuration
constructs, an incoherent one fails. -/
theorem C9_amended_witness :
    (∃ g, mkGame 4 1 2 true 1 [2, 3, 4, 5] = some g) ∧
      mkGame 5 1 2 true 1 [2, 3, 4, 5, 6] = none :=
  ⟨(C9_amended_construction 4 1 2 true 1 [2, 3, 4, 5]).2 (by decide) (by decide)
      (Or.inl (by decide)),
    (C9_amended_construction 5 1 2 true 1 [2, 3, 4, 5, 6]).1 (by decide)⟩

/-! ## Structural analysis of the turn mutation -/

theorem remove_stacks_eq (p : Player) (c : ℕ) :
    p.remove_stacks c =
      ⟨p.hand, selErase is_prime p.primes c, selErase notPrime p.composites c⟩ := by
  obtain ⟨h, pr, co⟩ := p
  by_cases hp : is_prime c = true <;> by_cases h1 : c ∈ pr <;> by_cases h2 : c ∈ co <;>
    simp [Player.remove_stacks, Player.remove_prime, Player.remove_composite,
      Player.prime_contains, Player.composite_contains, selErase, notPrime,
      hp, h1, h2, List.erase_of_not_mem]

theorem add_stacks_eq (p : Player) (c : ℕ) :
    p.add_stacks c =
      ⟨p.hand, selPush is_prime p.primes c, selPush notPrime p.composites c⟩ := by
  obtain ⟨h, pr, co⟩ := p
  by_cases hp : is_prime c = true <;> by_cases h1 : c ∈ pr <;> by_cases h2 : c ∈ co <;>
    simp [Player.add_stacks, Player.add_prime, Player.add_composite,
      Player.remove_prime, Player.remove_composite,
      Player.prime_contains, Player.composite_contains, selPush, notPrime,
      hp, h1, h2, List.erase_of_not_mem]

theorem moveHands_fold_cap (cards : Finset ℕ) (h3 : cards.card = 3) :
    ∀ (cl : List ℕ) (pq : Player × Player),
      cl.foldl
        (fun (pq : Player × Player) c =>
          let pq1 := if cards.card = 3 then (pq.1.remove_stacks c, pq.2.remove_stacks c) else pq
          (pq1.1.remove_hand c, pq1.2)) pq =
      (⟨cl.foldl (fun s c => s.erase c) pq.1.hand,
        cl.foldl (selErase is_prime) pq.1.primes, cl.foldl (selErase notPrime) pq.1.composites⟩,
       ⟨pq.2.hand, cl.foldl (selErase is_prime) pq.2.primes,
        cl.foldl (selErase notPrime) pq.2.composites⟩) := by
  intro cl
  induction cl with
  | nil => intro pq; rfl
  | cons c rest ih =>
    intro pq
    rw [List.foldl_cons, ih]
    simp only [if_pos h3, remove_stacks_eq, Player.remove_hand]
    rfl

theorem moveHands_fold_nocap (cards : Finset ℕ) (h3 : ¬ cards.card = 3) :
    ∀ (cl : List ℕ) (pq : Player × Player),
      cl.foldl
        (fun (pq : Player × Player) c =>
          let pq1 := if cards.card = 3 then (pq.1.remove_stacks c, pq.2.remove_stacks c) else pq
          (pq1.1.remove_hand c, pq1.2)) pq =
      (⟨cl.foldl (fun s c => s.erase c) pq.1.hand, pq.1.primes, pq.1.composites⟩, pq.2) := by
  intro cl
  induction cl with
  | nil => intro pq; rfl
  | cons c rest ih =>
    intro pq
    rw [List.foldl_cons, ih]
    simp only [if_neg h3, Player.remove_hand]
    rfl

theorem foldl_add_stacks_eq :
    ∀ (cl : List ℕ) (p : Player),
      cl.foldl (fun p c => p.add_stacks c) p =
        ⟨p.hand, cl.foldl (selPush is_prime) p.primes, cl.foldl (selPush notPrime) p.composites⟩ := by
  intro cl
  induction cl with
  | nil => intro p; rfl
  | cons c rest ih =>
    intro p
    rw [List.foldl_cons, ih, add_stacks_eq]
    rfl

/-- Full characterization of `moveHands` on a 3-card capture. -/
theorem moveHands_cap (cards : Finset ℕ) (p q : Player) (h3 : cards.card = 3) :
    moveHands cards p q =
      (⟨(setList cards).foldl (fun s c => s.erase c) p.hand,
        (setList cards).foldl (selPush is_prime)
          ((setList cards).foldl (selErase is_prime) p.primes),
        (setList cards).foldl (selPush notPrime)
          ((setList cards).foldl (selErase notPrime) p.composites)⟩,
       ⟨q.hand, (setList cards).foldl (selErase is_prime) q.primes,
        (setList cards).foldl (selErase notPrime) q.composites⟩) := by
  simp only [moveHands]
  rw [moveHands_fold_cap cards h3, if_pos h3]
  rw [foldl_add_stacks_eq]

/-- Full characterization of `moveHands` on a non-capture move. -/
theorem moveHands_nocap (cards : Finset ℕ) (p q : Player) (h3 : ¬ cards.card = 3) :
    moveHands cards p q =
      (⟨(setList cards).foldl (fun s c => s.erase c) p.hand, p.primes, p.composites⟩, q) := by
  simp only [moveHands]
  rw [moveHands_fold_nocap cards h3, if_neg h3]

theorem foldl_erase_sdiff :
    ∀ (cl : List ℕ) (s : Finset ℕ),
      cl.foldl (fun s c => s.erase c) s = s \ cl.toFinset := by
  intro cl
  induction cl with
  | nil => intro s; simp
  | cons c rest ih =>
    intro s
    rw [List.foldl_cons, ih, List.toFinset_cons]
    ext x
    simp only [Finset.mem_sdiff, Finset.mem_erase, Finset.mem_insert, List.mem_toFinset]
    tauto

theorem setList_foldl_erase (cards : Finset ℕ) (s : Finset ℕ) :
    (setList cards).foldl (fun s c => s.erase c) s = s \ cards := by
  rw [foldl_erase_sdiff, setList_toFinset]

theorem selErase_fold (pr : ℕ → Bool) :
    ∀ (cl l : List ℕ), l.Nodup →
      (cl.foldl (selErase pr) l).Nodup ∧
      ∀ x, (x ∈ cl.foldl (selErase pr) l ↔ x ∈ l ∧ ¬(pr x = true ∧ x ∈ cl)) := by
  intro cl
  induction cl with
  | nil =>
    intro l hl
    exact ⟨hl, fun x => by simp⟩
  | cons c rest ih =>
    intro l hl
    have hnd1 : (selErase pr l c).Nodup := by
      unfold selErase
      split
      · exact hl.erase c
      · exact hl
    obtain ⟨hnd, hmem⟩ := ih (selErase pr l c) hnd1
    refine ⟨by rw [List.foldl_cons]; exact hnd, fun x => ?_⟩
    rw [List.foldl_cons, hmem x]
    have hsel : x ∈ selErase pr l c ↔ x ∈ l ∧ ¬(pr x = true ∧ x = c) := by
      unfold selErase
      by_cases hpc : pr c = true
      · rw [if_pos hpc, hl.mem_erase_iff]
        constructor
        · rintro ⟨hne, hx⟩
          exact ⟨hx, fun hcon => hne hcon.2⟩
        · rintro ⟨hx, hno⟩
          refine ⟨fun heq => hno ⟨by rw [heq]; exact hpc, heq⟩, hx⟩
      · rw [if_neg hpc]
        constructor
        · intro hx
          refine ⟨hx, fun hcon => hpc (by rw [← hcon.2]; exact hcon.1)⟩
        · exact fun hx => hx.1
    rw [hsel]
    constructor
    · rintro ⟨⟨hx, hnc⟩, hnr⟩
      refine ⟨hx, fun hcon => ?_⟩
      rcases List.mem_cons.mp hcon.2 with rfl | hr
      · exact hnc ⟨hcon.1, rfl⟩
      · exact hnr ⟨hcon.1, hr⟩
    · rintro ⟨hx, hno⟩
      exact ⟨⟨hx, fun hcon => hno ⟨hcon.1, hcon.2 ▸ List.mem_cons_self _ _⟩⟩,
        fun hcon => hno ⟨hcon.1, List.mem_cons_of_mem _ hcon.2⟩⟩

theorem selPush_fold (pr : ℕ → Bool) :
    ∀ (cl l : List ℕ), l.Nodup →
      (cl.foldl (selPush pr) l).Nodup ∧
      ∀ x, x ∈ cl.foldl (selPush pr) l → x ∈ l ∨ (pr x = true ∧ x ∈ cl) := by
  intro cl
  induction cl with
  | nil =>
    intro l hl
    exact ⟨hl, fun x hx => Or.inl hx⟩
  | cons c rest ih =>
    intro l hl
    have hnd1 : (selPush pr l c).Nodup := by
      unfold selPush
      split
      · refine List.Nodup.append (hl.erase c) (List.nodup_singleton c) ?_
        intro a ha hb
        rw [List.mem_singleton] at hb
        subst hb
        exact ((hl.mem_erase_iff).mp ha).1 rfl
      · exact hl
    obtain ⟨hnd, hmem⟩ := ih (selPush pr l c) hnd1
    refine ⟨by rw [List.foldl_cons]; exact hnd, fun x hx => ?_⟩
    rw [List.foldl_cons] at hx
    rcases hmem x hx with hx1 | hx1
    · unfold selPush at hx1
      split at hx1
      · rename_i hpc
        rcases List.mem_append.mp hx1 with hx2 | hx2
        · exact Or.inl (List.mem_of_mem_erase hx2)
        · rw [List.mem_singleton] at hx2
          subst hx2
          exact Or.inr ⟨hpc, List.mem_cons_self _ _⟩
      · exact Or.inl hx1
    · exact Or.inr ⟨hx1.1, List.mem_cons_of_mem _ hx1.2⟩

theorem eraseIf_subset {t : Finset ℕ} {c x : ℕ}
    (h : x ∈ (if c ∈ t then t.erase c else t)) : x ∈ t := by
  split at h
  · exact Finset.mem_of_mem_erase h
  · exact h

theorem matchErase_subset (o : Option ℕ) (t : Finset ℕ) (x : ℕ)
    (h : x ∈ (match o with | some c => if c ∈ t then t.erase c else t | none => t)) :
    x ∈ t := by
  match o with
  | some c => exact eraseIf_subset h
  | none => exact h

theorem tableAfterPlayers_subset (p : Player) (t : Finset ℕ) (x : ℕ)
    (h : x ∈ tableAfterPlayers p t) : x ∈ t :=
  matchErase_subset p.obtain_last_prime t x
    (matchErase_subset p.obtain_last_composite _ x h)

theorem matchInsert_mem (o : Option ℕ) (t : Finset ℕ) (x : ℕ)
    (h : x ∈ (match o with | some c => insert c t | none => t)) :
    x ∈ t ∨ o = some x := by
  match o with
  | some c =>
    rcases Finset.mem_insert.mp h with rfl | h
    · exact Or.inr rfl
    · exact Or.inl h
  | none => exact Or.inl h

theorem tableFold_mem (cards : Finset ℕ) :
    ∀ (cl : List ℕ) (t : Finset ℕ) (x : ℕ),
      x ∈ cl.foldl
        (fun t c =>
          let t' := if c ∈ t then t.erase c else t
          if cards.card ≠ 3 then insert c t' else t') t →
      x ∈ t ∨ (cards.card ≠ 3 ∧ x ∈ cl) := by
  intro cl
  induction cl with
  | nil => intro t x h; exact Or.inl h
  | cons c rest ih =>
    intro t x h
    rw [List.foldl_cons] at h
    rcases ih _ x h with h1 | h1
    · replace h1 : x ∈ (if cards.card ≠ 3 then
          insert c (if c ∈ t then t.erase c else t)
        else (if c ∈ t then t.erase c else t)) := h1
      split at h1
      · rcases Finset.mem_insert.mp h1 with rfl | h2
        · rename_i hc3
          exact Or.inr ⟨hc3, List.mem_cons_self _ _⟩
        · exact Or.inl (eraseIf_subset h2)
      · exact Or.inl (eraseIf_subset h1)
    · exact Or.inr ⟨h1.1, List.mem_cons_of_mem _ h1.2⟩

theorem tableAfterMove_mem (cards : Finset ℕ) (p q : Player) (t : Finset ℕ) (x : ℕ)
    (h : x ∈ tableAfterMove cards p q t) :
    x ∈ t ∨ (cards.card ≠ 3 ∧ x ∈ cards) ∨
      x ∈ p.primes ∨ x ∈ p.composites ∨ x ∈ q.primes ∨ x ∈ q.composites := by
  unfold tableAfterMove at h
  rcases matchInsert_mem q.obtain_last_composite _ x h with h | h
  rotate_left
  · exact Or.inr (Or.inr (Or.inr (Or.inr (Or.inr (List.mem_of_getLast?_eq_some h)))))
  rcases matchInsert_mem q.obtain_last_prime _ x h with h | h
  rotate_left
  · exact Or.inr (Or.inr (Or.inr (Or.inr (Or.inl (List.mem_of_getLast?_eq_some h)))))
  rcases matchInsert_mem p.obtain_last_composite _ x h with h | h
  rotate_left
  · exact Or.inr (Or.inr (Or.inr (Or.inl (List.mem_of_getLast?_eq_some h))))
  rcases matchInsert_mem p.obtain_last_prime _ x h with h | h
  rotate_left
  · exact Or.inr (Or.inr (Or.inl (List.mem_of_getLast?_eq_some h)))
  rcases tableFold_mem cards _ _ x h with h | h
  · exact Or.inl h
  · exact Or.inr (Or.inl ⟨h.1, mem_setList.mp h.2⟩)

/-! ## The board invariant -/

theorem PairInv.symm {p q : Player} {t : Finset ℕ} (h : PairInv p q t) : PairInv q p t where
  hands_disj := fun c hc hq => h.hands_disj c hq hc
  hand_p_table := h.hand_q_table
  hand_q_table := h.hand_p_table
  hand_p_stacks := fun c hc hor => h.hand_q_stacks c hc (by tauto)
  hand_q_stacks := fun c hc hor => h.hand_p_stacks c hc (by tauto)
  p_primes_nodup := h.q_primes_nodup
  p_comps_nodup := h.q_comps_nodup
  q_primes_nodup := h.p_primes_nodup
  q_comps_nodup := h.p_comps_nodup
  p_primes_prime := h.q_primes_prime
  p_comps_comp := h.q_comps_comp
  q_primes_prime := h.p_primes_prime
  q_comps_comp := h.p_comps_comp
  primes_cross := fun c hc hq => h.primes_cross c hq hc
  comps_cross := fun c hc hq => h.comps_cross c hq hc

/-- The acting player's view of the board invariant. -/
theorem StateInv.pair {g : Game} (hinv : StateInv g) :
    PairInv (g.player g.current) (g.player ((g.current + 1) % 2)) g.table := by
  rcases hinv.cur01 with hc | hc <;> rw [hc] <;> simp only [Game.player] <;> norm_num
  · exact hinv.board
  · exact hinv.board.symm

/-- Every entry of the playable-move table that the acting player can
play is a `GoodMove`. -/
theorem good_move_of_key (g : Game) (hinv : StateInv g) {m : Finset ℕ} {v : ℤ}
    (hmem : (m, v) ∈ g.playable_sets)
    (hcp : (g.player g.current).can_play_move m = true) : GoodMove g m := by
  rw [hinv.ps_eq] at hmem
  rcases find_playable_sets_mem g hmem with ⟨c, hc, hkv⟩ |
    ⟨c1, c2, c3, h1, h2, h12, hm, hcard, _⟩
  · rw [Prod.mk.injEq] at hkv
    exact Or.inl ⟨c, hc, hkv.1⟩
  · replace hm : m = insert c1 (insert c2 {c3}) := hm
    replace hcard : m.card = 3 := hcard
    unfold Player.can_play_move at hcp
    rw [decide_eq_true_eq] at hcp
    obtain ⟨x, hx⟩ := Finset.card_ne_zero.mp hcp
    rw [Finset.mem_inter] at hx
    have hpt := hinv.pair.hand_p_table
    have hx2 := hx.2
    rw [hm, Finset.mem_insert, Finset.mem_insert, Finset.mem_singleton] at hx2
    rcases hx2 with rfl | rfl | rfl
    · exact absurd h1 (hpt x hx.1)
    · exact absurd h2 (hpt x hx.1)
    · exact Or.inr ⟨c1, c2, x, h1, h2, h12, hm, hcard, hx.1⟩

theorem pair_step_single (p q : Player) (t : Finset ℕ) (c : ℕ) (hpi : PairInv p q t)
    (hc : c ∈ p.hand) :
    (moveHands {c} p q).1.hand = p.hand \ {c} ∧
    (moveHands {c} p q).2.hand = q.hand ∧
    (p.hand ∩ {c}).card = 1 ∧
    PairInv (moveHands {c} p q).1 (moveHands {c} p q).2
      (tableAfterMove {c} (moveHands {c} p q).1 (moveHands {c} p q).2
        (tableAfterPlayers p t)) := by
  have h3 : ¬ ({c} : Finset ℕ).card = 3 := by simp
  rw [moveHands_nocap _ _ _ h3]
  have hinter : p.hand ∩ {c} = {c} := by
    ext x
    simp only [Finset.mem_inter, Finset.mem_singleton]
    exact ⟨fun h => h.2, fun h => ⟨h ▸ hc, h⟩⟩
  refine ⟨setList_foldl_erase {c} p.hand, rfl, by rw [hinter]; exact Finset.card_singleton c, ?_⟩
  rw [setList_foldl_erase]
  have htm : ∀ x, x ∈ tableAfterMove {c}
      (⟨p.hand \ {c}, p.primes, p.composites⟩ : Player) q (tableAfterPlayers p t) →
      x ∈ t ∨ x = c ∨ x ∈ p.primes ∨ x ∈ p.composites ∨ x ∈ q.primes ∨ x ∈ q.composites := by
    intro x hx
    rcases tableAfterMove_mem _ _ _ _ _ hx with hy | hy | hy | hy | hy | hy
    · exact Or.inl (tableAfterPlayers_subset p t x hy)
    · exact Or.inr (Or.inl (Finset.mem_singleton.mp hy.2))
    all_goals tauto
  refine ⟨?_, ?_, ?_, ?_, ?_, hpi.p_primes_nodup, hpi.p_comps_nodup, hpi.q_primes_nodup,
    hpi.q_comps_nodup, hpi.p_primes_prime, hpi.p_comps_comp, hpi.q_primes_prime,
    hpi.q_comps_comp, hpi.primes_cross, hpi.comps_cross⟩
  · intro x hx
    exact hpi.hands_disj x (Finset.mem_sdiff.mp hx).1
  · intro x hx hmem
    obtain ⟨hxp, hxc⟩ := Finset.mem_sdiff.mp hx
    rw [Finset.mem_singleton] at hxc
    rcases htm x hmem with h | h | h | h | h | h
    · exact hpi.hand_p_table x hxp h
    · exact hxc h
    · exact hpi.hand_p_stacks x hxp (Or.inl h)
    · exact hpi.hand_p_stacks x hxp (Or.inr (Or.inl h))
    · exact hpi.hand_p_stacks x hxp (Or.inr (Or.inr (Or.inl h)))
    · exact hpi.hand_p_stacks x hxp (Or.inr (Or.inr (Or.inr h)))
  · intro x hx hmem
    rcases htm x hmem with h | h | h | h | h | h
    · exact hpi.hand_q_table x hx h
    · exact hpi.hands_disj c hc (h ▸ hx)
    · exact hpi.hand_q_stacks x hx (Or.inl h)
    · exact hpi.hand_q_stacks x hx (Or.inr (Or.inl h))
    · exact hpi.hand_q_stacks x hx (Or.inr (Or.inr (Or.inl h)))
    · exact hpi.hand_q_stacks x hx (Or.inr (Or.inr (Or.inr h)))
  · intro x hx
    exact hpi.hand_p_stacks x (Finset.mem_sdiff.mp hx).1
  · intro x hx
    exact hpi.hand_q_stacks x hx

theorem notPrime_eq {x : ℕ} : notPrime x = true ↔ is_prime x = false := by
  unfold notPrime
  cases is_prime x <;> simp

theorem pair_step_capture (p q : Player) (t : Finset ℕ) (m : Finset ℕ) (c1 c2 c3 : ℕ)
    (hpi : PairInv p q t) (ht1 : c1 ∈ t) (ht2 : c2 ∈ t)
    (hm : m = insert c1 (insert c2 {c3})) (hcard : m.card = 3) (hc3 : c3 ∈ p.hand) :
    (moveHands m p q).1.hand = p.hand \ m ∧
    (moveHands m p q).2.hand = q.hand ∧
    (p.hand ∩ m).card = 1 ∧
    PairInv (moveHands m p q).1 (moveHands m p q).2
      (tableAfterMove m (moveHands m p q).1 (moveHands m p q).2
        (tableAfterPlayers p t)) := by
  rw [moveHands_cap _ _ _ hcard]
  have hmem_m : ∀ x, x ∈ m ↔ (x = c1 ∨ x = c2 ∨ x = c3) := by
    intro x
    rw [hm]
    simp [Finset.mem_insert]
  have hc3m : c3 ∈ m := (hmem_m c3).mpr (Or.inr (Or.inr rfl))
  have hpm : ∀ x ∈ p.hand, x ∈ m → x = c3 := by
    intro x hx hxm
    rcases (hmem_m x).mp hxm with rfl | rfl | heq
    · exact absurd ht1 (hpi.hand_p_table x hx)
    · exact absurd ht2 (hpi.hand_p_table x hx)
    · exact heq
  have hqm : ∀ x ∈ m, x ∉ q.hand := by
    intro x hxm hxq
    rcases (hmem_m x).mp hxm with rfl | rfl | heq
    · exact hpi.hand_q_table x hxq ht1
    · exact hpi.hand_q_table x hxq ht2
    · rw [heq] at hxq
      exact hpi.hands_disj c3 hc3 hxq
  have hinter : p.hand ∩ m = {c3} := by
    ext x
    simp only [Finset.mem_inter, Finset.mem_singleton]
    constructor
    · rintro ⟨hx, hxm⟩
      exact hpm x hx hxm
    · rintro rfl
      exact ⟨hc3, hc3m⟩
  obtain ⟨hPEnd, hPEmem⟩ := selErase_fold is_prime (setList m) p.primes hpi.p_primes_nodup
  obtain ⟨hPCEnd, hPCEmem⟩ := selErase_fold notPrime (setList m) p.composites hpi.p_comps_nodup
  obtain ⟨hQPnd, hQPmem⟩ := selErase_fold is_prime (setList m) q.primes hpi.q_primes_nodup
  obtain ⟨hQCnd, hQCmem⟩ := selErase_fold notPrime (setList m) q.composites hpi.q_comps_nodup
  obtain ⟨hPPnd, hPPmem⟩ := selPush_fold is_prime (setList m) _ hPEnd
  obtain ⟨hPCnd, hPCmem⟩ := selPush_fold notPrime (setList m) _ hPCEnd
  have hPP : ∀ x, x ∈ (setList m).foldl (selPush is_prime)
      ((setList m).foldl (selErase is_prime) p.primes) →
      x ∈ p.primes ∨ (is_prime x = true ∧ x ∈ m) := by
    intro x hx
    rcases hPPmem x hx with hx1 | hx1
    · exact Or.inl ((hPEmem x).mp hx1).1
    · exact Or.inr ⟨hx1.1, mem_setList.mp hx1.2⟩
  have hPC : ∀ x, x ∈ (setList m).foldl (selPush notPrime)
      ((setList m).foldl (selErase notPrime) p.composites) →
      x ∈ p.composites ∨ (is_prime x = false ∧ x ∈ m) := by
    intro x hx
    rcases hPCmem x hx with hx1 | hx1
    · exact Or.inl ((hPCEmem x).mp hx1).1
    · exact Or.inr ⟨notPrime_eq.mp hx1.1, mem_setList.mp hx1.2⟩
  have hQP : ∀ x, x ∈ (setList m).foldl (selErase is_prime) q.primes →
      x ∈ q.primes ∧ ¬(is_prime x = true ∧ x ∈ m) := by
    intro x hx
    obtain ⟨hx1, hx2⟩ := (hQPmem x).mp hx
    exact ⟨hx1, fun hcon => hx2 ⟨hcon.1, mem_setList.mpr hcon.2⟩⟩
  have hQC : ∀ x, x ∈ (setList m).foldl (selErase notPrime) q.composites →
      x ∈ q.composites ∧ ¬(is_prime x = false ∧ x ∈ m) := by
    intro x hx
    obtain ⟨hx1, hx2⟩ := (hQCmem x).mp hx
    exact ⟨hx1, fun hcon => hx2 ⟨notPrime_eq.mpr hcon.1, mem_setList.mpr hcon.2⟩⟩
  refine ⟨setList_foldl_erase m p.hand, rfl, by rw [hinter]; exact Finset.card_singleton c3, ?_⟩
  rw [setList_foldl_erase]
  have htm : ∀ x, x ∈ tableAfterMove m
      (⟨p.hand \ m, (setList m).foldl (selPush is_prime)
          ((setList m).foldl (selErase is_prime) p.primes),
        (setList m).foldl (selPush notPrime)
          ((setList m).foldl (selErase notPrime) p.composites)⟩ : Player)
      (⟨q.hand, (setList m).foldl (selErase is_prime) q.primes,
        (setList m).foldl (selErase notPrime) q.composites⟩ : Player)
      (tableAfterPlayers p t) →
      x ∈ t ∨ (x ∈ p.primes ∨ (is_prime x = true ∧ x ∈ m)) ∨
        (x ∈ p.composites ∨ (is_prime x = false ∧ x ∈ m)) ∨
        x ∈ q.primes ∨ x ∈ q.composites := by
    intro x hx
    rcases tableAfterMove_mem _ _ _ _ _ hx with h | h | h | h | h | h
    · exact Or.inl (tableAfterPlayers_subset p t x h)
    · exact absurd hcard h.1
    · exact Or.inr (Or.inl (hPP x h))
    · exact Or.inr (Or.inr (Or.inl (hPC x h)))
    · exact Or.inr (Or.inr (Or.inr (Or.inl (hQP x h).1)))
    · exact Or.inr (Or.inr (Or.inr (Or.inr (hQC x h).1)))
  have hstack_p : ∀ x ∈ p.hand, x ∉ m →
      ¬((x ∈ p.primes ∨ (is_prime x = true ∧ x ∈ m)) ∨
        (x ∈ p.composites ∨ (is_prime x = false ∧ x ∈ m)) ∨
        x ∈ q.primes ∨ x ∈ q.composites) := by
    intro x hx hxm hcon
    rcases hcon with (h | h) | (h | h) | h | h
    · exact hpi.hand_p_stacks x hx (Or.inl h)
    · exact hxm h.2
    · exact hpi.hand_p_stacks x hx (Or.inr (Or.inl h))
    · exact hxm h.2
    · exact hpi.hand_p_stacks x hx (Or.inr (Or.inr (Or.inl h)))
    · exact hpi.hand_p_stacks x hx (Or.inr (Or.inr (Or.inr h)))
  have hstack_q : ∀ x ∈ q.hand,
      ¬((x ∈ p.primes ∨ (is_prime x = true ∧ x ∈ m)) ∨
        (x ∈ p.composites ∨ (is_prime x = false ∧ x ∈ m)) ∨
        x ∈ q.primes ∨ x ∈ q.composites) := by
    intro x hx hcon
    rcases hcon with (h | h) | (h | h) | h | h
    · exact hpi.hand_q_stacks x hx (Or.inl h)
    · exact hqm x h.2 hx
    · exact hpi.hand_q_stacks x hx (Or.inr (Or.inl h))
    · exact hqm x h.2 hx
    · exact hpi.hand_q_stacks x hx (Or.inr (Or.inr (Or.inl h)))
    · exact hpi.hand_q_stacks x hx (Or.inr (Or.inr (Or.inr h)))
  refine ⟨?_, ?_, ?_, ?_, ?_, hPPnd, hPCnd, hQPnd, hQCnd, ?_, ?_, ?_, ?_, ?_, ?_⟩
  · intro x hx
    exact hpi.hands_disj x (Finset.mem_sdiff.mp hx).1
  · intro x hx hmem
    obtain ⟨hxp, hxm⟩ := Finset.mem_sdiff.mp hx
    rcases htm x hmem with h | h
    · exact hpi.hand_p_table x hxp h
    · exact hstack_p x hxp hxm h
  · intro x hx hmem
    rcases htm x hmem with h | h
    · exact hpi.hand_q_table x hx h
    · exact hstack_q x hx h
  · intro x hx hcon
    obtain ⟨hxp, hxm⟩ := Finset.mem_sdiff.mp hx
    refine hstack_p x hxp hxm ?_
    rcases hcon with h | h | h | h
    · exact Or.inl (hPP x h)
    · exact Or.inr (Or.inl (hPC x h))
    · exact Or.inr (Or.inr (Or.inl (hQP x h).1))
    · exact Or.inr (Or.inr (Or.inr (hQC x h).1))
  · intro x hx hcon
    refine hstack_q x hx ?_
    rcases hcon with h | h | h | h
    · exact Or.inl (hPP x h)
    · exact Or.inr (Or.inl (hPC x h))
    · exact Or.inr (Or.inr (Or.inl (hQP x h).1))
    · exact Or.inr (Or.inr (Or.inr (hQC x h).1))
  · intro x hx
    rcases hPP x hx with h | h
    · exact hpi.p_primes_prime x h
    · exact h.1
  · intro x hx
    rcases hPC x hx with h | h
    · exact hpi.p_comps_comp x h
    · exact h.1
  · intro x hx
    exact hpi.q_primes_prime x (hQP x hx).1
  · intro x hx
    exact hpi.q_comps_comp x (hQC x hx).1
  · intro x hx hq
    obtain ⟨hq1, hq2⟩ := hQP x hq
    rcases hPP x hx with h | h
    · exact hpi.primes_cross x h hq1
    · exact hq2 h
  · intro x hx hq
    obtain ⟨hq1, hq2⟩ := hQC x hq
    rcases hPC x hx with h | h
    · exact hpi.comps_cross x h hq1
    · exact hq2 h

theorem pair_step (p q : Player) (t m : Finset ℕ) (hpi : PairInv p q t)
    (hm : PairMove p t m) :
    (moveHands m p q).1.hand = p.hand \ m ∧
    (moveHands m p q).2.hand = q.hand ∧
    (p.hand ∩ m).card = 1 ∧
    PairInv (moveHands m p q).1 (moveHands m p q).2
      (tableAfterMove m (moveHands m p q).1 (moveHands m p q).2
        (tableAfterPlayers p t)) := by
  rcases hm with ⟨c, hc, rfl⟩ | ⟨c1, c2, c3, ht1, ht2, _, hmeq, hcard, hc3⟩
  · exact pair_step_single p q t c hpi hc
  · exact pair_step_capture p q t _ c1 c2 c3 hpi ht1 ht2 hmeq hcard hc3

theorem apply_move_eq_zero (g : Game) (m : Finset ℕ) (hc : g.current = 0) :
    (g.apply_move m).players =
      ((moveHands m g.players.1 g.players.2).1, (moveHands m g.players.1 g.players.2).2) ∧
    (g.apply_move m).table =
      tableAfterMove m (moveHands m g.players.1 g.players.2).1
        (moveHands m g.players.1 g.players.2).2 (tableAfterPlayers g.players.1 g.table) := by
  constructor <;>
    simp [Game.apply_move, Game.update_table, Game.update_players, Game.new_players_table,
      Game.new_table, Game.player, writePlayers, hc]

theorem apply_move_eq_one (g : Game) (m : Finset ℕ) (hc : g.current = 1) :
    (g.apply_move m).players =
      ((moveHands m g.players.2 g.players.1).2, (moveHands m g.players.2 g.players.1).1) ∧
    (g.apply_move m).table =
      tableAfterMove m (moveHands m g.players.2 g.players.1).1
        (moveHands m g.players.2 g.players.1).2 (tableAfterPlayers g.players.2 g.table) := by
  constructor <;>
    simp [Game.apply_move, Game.update_table, Game.update_players, Game.new_players_table,
      Game.new_table, Game.player, writePlayers, hc]

/-- The combined player/table mutation: the acting player's hand loses
exactly the played cards (of which it held exactly one), the opponent's
hand is untouched, and the board invariant is preserved. -/
theorem apply_move_facts (g : Game) (m : Finset ℕ) (hinv : StateInv g) (hgm : GoodMove g m) :
    ((g.apply_move m).player g.current).hand = (g.player g.current).hand \ m ∧
    ((g.apply_move m).player ((g.current + 1) % 2)).hand =
      (g.player ((g.current + 1) % 2)).hand ∧
    ((g.player g.current).hand ∩ m).card = 1 ∧
    PairInv ((g.apply_move m).player g.current)
      ((g.apply_move m).player ((g.current + 1) % 2)) (g.apply_move m).table := by
  unfold GoodMove at hgm
  rcases hinv.cur01 with hc | hc
  · obtain ⟨hpl, htb⟩ := apply_move_eq_zero g m hc
    rw [hc] at hgm ⊢
    simp only [Game.player] at hgm ⊢
    norm_num at hgm ⊢
    obtain ⟨h1, h2, h3, h4⟩ := pair_step _ _ _ _ hinv.board hgm
    rw [hpl, htb]
    exact ⟨h1, h2, h3, h4⟩
  · obtain ⟨hpl, htb⟩ := apply_move_eq_one g m hc
    rw [hc] at hgm ⊢
    simp only [Game.player] at hgm ⊢
    norm_num at hgm ⊢
    obtain ⟨h1, h2, h3, h4⟩ := pair_step _ _ _ _ hinv.board.symm hgm
    rw [hpl, htb]
    exact ⟨h1, h2, h3, h4⟩

theorem update_proj (g : Game) (m : Finset ℕ) (v : ℤ) :
    (g.update m v).players = (g.apply_move m).players ∧
    (g.update m v).table = (g.apply_move m).table ∧
    (g.update m v).current = (if g.current = 0 then 1 else 0) ∧
    (g.update m v).first = g.first ∧
    (g.update m v).playable_sets = (g.update m v).find_playable_sets :=
  ⟨rfl, rfl, rfl, rfl, rfl⟩

theorem sim_step_proj (choice : Finset ℕ → ℕ) (g : Game) :
    (g.sim_step_greedy choice).players =
      (g.apply_move (g.greedy_play (choice (g.player g.current).hand)).1).players ∧
    (g.sim_step_greedy choice).table =
      (g.apply_move (g.greedy_play (choice (g.player g.current).hand)).1).table ∧
    (g.sim_step_greedy choice).current = (if g.current = 0 then 1 else 0) ∧
    (g.sim_step_greedy choice).first = g.first ∧
    (g.sim_step_greedy choice).playable_sets = (g.sim_step_greedy choice).find_playable_sets :=
  ⟨rfl, rfl, rfl, rfl, rfl⟩

/-- Source `Game.update` with a well-shaped move preserves the state invariant. -/
theorem update_preserves_StateInv (g : Game) (m : Finset ℕ) (v : ℤ)
    (hinv : StateInv g) (hgm : GoodMove g m) : StateInv (g.update m v) := by
  obtain ⟨hpl, htb, hcur, hfst, hps⟩ := update_proj g m v
  obtain ⟨_, _, _, h4⟩ := apply_move_facts g m hinv hgm
  constructor
  · rw [hcur]
    split
    · exact Or.inr rfl
    · exact Or.inl rfl
  · rw [hfst]
    exact hinv.first01
  · rw [hpl, htb]
    rcases hinv.cur01 with hc | hc <;> rw [hc] at h4 <;>
      simp only [Game.player] at h4 <;> norm_num at h4
    · exact h4
    · exact h4.symm
  · exact hps

theorem card_sdiff_of_inter_one {s m : Finset ℕ} (h : (s ∩ m).card = 1) :
    (s \ m).card = s.card - 1 := by
  have hc := Finset.card_inter_add_card_sdiff s m
  omega

theorem greedy_fold_spec (p : Player) :
    ∀ (l : List (Finset ℕ × ℤ)) (best : Finset ℕ × ℤ), 0 ≤ best.2 →
      l.foldl (fun best kv =>
          if p.can_play_move kv.1 = true ∧ best.2 < kv.2 then kv else best) best = best ∨
      (l.foldl (fun best kv =>
          if p.can_play_move kv.1 = true ∧ best.2 < kv.2 then kv else best) best ∈ l ∧
        p.can_play_move (l.foldl (fun best kv =>
          if p.can_play_move kv.1 = true ∧ best.2 < kv.2 then kv else best) best).1 = true) := by
  intro l
  induction l with
  | nil => intro best _; exact Or.inl rfl
  | cons kv rest ih =>
    intro best hb
    rw [List.foldl_cons]
    by_cases hg : p.can_play_move kv.1 = true ∧ best.2 < kv.2
    · rw [if_pos hg]
      rcases ih kv (le_of_lt (lt_of_le_of_lt hb hg.2)) with h | h
      · rw [h]
        exact Or.inr ⟨List.mem_cons_self _ _, hg.1⟩
      · exact Or.inr ⟨List.mem_cons_of_mem _ h.1, h.2⟩
    · rw [if_neg hg]
      rcases ih best hb with h | h
      · exact Or.inl h
      · exact Or.inr ⟨List.mem_cons_of_mem _ h.1, h.2⟩

/-- The greedy strategy always produces a well-shaped move when the
supplied random fallback card is in the acting player's hand. -/
theorem greedy_good (g : Game) (hinv : StateInv g) (pick : ℕ)
    (hpick : pick ∈ (g.player g.current).hand) :
    GoodMove g (g.greedy_play pick).1 := by
  unfold Game.greedy_play
  rcases greedy_fold_spec (g.player g.current) g.playable_sets ({pick}, 0) (by simp) with h | h
  · rw [h]
    exact Or.inl ⟨pick, hpick, rfl⟩
  · obtain ⟨hmem, hcp⟩ := h
    exact good_move_of_key g hinv hmem hcp

/-- One iteration of the greedy-vs-greedy simulation loop from a
well-formed state with a non-empty acting hand: the invariant is kept,
the new acting hand is the old opponent hand, the new opponent hand (the
old acting player) lost exactly one card, and `first` is unchanged. -/
theorem sim_step_facts (choice : Finset ℕ → ℕ)
    (hch : ∀ s : Finset ℕ, s.Nonempty → choice s ∈ s) (g : Game) (hinv : StateInv g)
    (hne : (g.player g.current).hand.Nonempty) :
    StateInv (g.sim_step_greedy choice) ∧
    ((g.sim_step_greedy choice).player (g.sim_step_greedy choice).current).hand =
      (g.player ((g.current + 1) % 2)).hand ∧
    ((g.sim_step_greedy choice).player
        (((g.sim_step_greedy choice).current + 1) % 2)).hand.card =
      (g.player g.current).hand.card - 1 ∧
    (g.sim_step_greedy choice).first = g.first := by
  have hgm : GoodMove g (g.greedy_play (choice (g.player g.current).hand)).1 :=
    greedy_good g hinv _ (hch _ hne)
  obtain ⟨hpl, htb, hcur, hfst, hps⟩ := sim_step_proj choice g
  obtain ⟨h1, h2, h3, h4⟩ := apply_move_facts g _ hinv hgm
  set m := (g.greedy_play (choice (g.player g.current).hand)).1 with hmdef
  refine ⟨⟨?_, ?_, ?_, hps⟩, ?_⟩
  · rw [hcur]
    split
    · exact Or.inr rfl
    · exact Or.inl rfl
  · rw [hfst]
    exact hinv.first01
  · rw [hpl, htb]
    rcases hinv.cur01 with hc | hc <;> rw [hc] at h4 <;>
      simp only [Game.player] at h4 <;> norm_num at h4
    · exact h4
    · exact h4.symm
  · rcases hinv.cur01 with hc | hc
    · rw [hc] at h1 h2 h3
      simp only [Game.player] at h1 h2 h3
      norm_num at h1 h2 h3
      rw [hcur, hc]
      simp only [Game.player]
      norm_num
      rw [hpl]
      refine ⟨h2, ?_, hfst⟩
      rw [h1]
      exact card_sdiff_of_inter_one h3
    · rw [hc] at h1 h2 h3
      simp only [Game.player] at h1 h2 h3
      norm_num at h1 h2 h3
      rw [hcur, hc]
      simp only [Game.player]
      norm_num
      rw [hpl]
      refine ⟨h2, ?_, hfst⟩
      rw [h1]
      exact card_sdiff_of_inter_one h3

theorem is_over_false (g : Game) (i : ℕ) (hne : (g.player i).hand.Nonempty) :
    g.is_over = false := by
  have hpos : 0 < (g.player i).hand.card := Finset.Nonempty.card_pos hne
  unfold Game.player at hpos
  unfold Game.is_over Player.is_hand_empty
  by_cases hi : i % 2 = 0
  · rw [if_pos hi] at hpos
    have hne1 : ¬ g.players.1.hand.card = 0 := by omega
    simp [hne1]
  · rw [if_neg hi] at hpos
    have hne2 : ¬ g.players.2.hand.card = 0 := by omega
    simp [hne2]

theorem is_over_true (g : Game) (h1 : g.players.1.hand = ∅)
    (h2 : g.players.2.hand = ∅) : g.is_over = true := by
  simp [Game.is_over, Player.is_hand_empty, h1, h2]

theorem winner_range (g : Game) (hf : g.first = 0 ∨ g.first = 1) :
    g.get_winner = -1 ∨ g.get_winner = 0 ∨ g.get_winner = 1 := by
  unfold Game.get_winner
  rcases hf with h | h <;> rw [h] <;> split_ifs <;> norm_num

/-- The greedy-vs-greedy loop from a well-formed state whose hand sizes
are balanced (the opponent holds as many cards as the acting player, or
one fewer) runs for exactly as many turns as there are cards in the two
hands, then terminates with a winner index in `{-1, 0, 1}`. -/
theorem sim_runs (choice : Finset ℕ → ℕ)
    (hch : ∀ s : Finset ℕ, s.Nonempty → choice s ∈ s) :
    ∀ (n : ℕ) (g : Game), StateInv g →
      (g.player g.current).hand.card + (g.player ((g.current + 1) % 2)).hand.card = n →
      (g.player ((g.current + 1) % 2)).hand.card ≤ (g.player g.current).hand.card →
      (g.player g.current).hand.card ≤ (g.player ((g.current + 1) % 2)).hand.card + 1 →
      (∀ m < n, Game.simulate_greedy choice m g = none) ∧
      ∃ w u, Game.simulate_greedy choice n g = some (g.first, w, u) ∧
        (w = -1 ∨ w = 0 ∨ w = 1) := by
  intro n
  induction n with
  | zero =>
    intro g hinv hsum _ _
    have hover : g.is_over = true := by
      have h1 : (g.player g.current).hand.card = 0 := by omega
      have h2 : (g.player ((g.current + 1) % 2)).hand.card = 0 := by omega
      rcases hinv.cur01 with hc | hc
      · rw [hc] at h1 h2
        simp only [Game.player] at h1 h2
        norm_num at h1 h2
        exact is_over_true g h1 h2
      · rw [hc] at h1 h2
        simp only [Game.player] at h1 h2
        norm_num at h1 h2
        exact is_over_true g h2 h1
    refine ⟨fun m hm => absurd hm (by omega),
      g.get_winner, g.u, ?_, winner_range g hinv.first01⟩
    simp [Game.simulate_greedy, hover]
  | succ k ih =>
    intro g hinv hsum hle1 hle2
    have hne : (g.player g.current).hand.Nonempty := by
      rw [← Finset.card_pos]
      omega
    have hover : g.is_over = false := is_over_false g g.current hne
    obtain ⟨hinv2, hcur2, hoth2, hfst2⟩ := sim_step_facts choice hch g hinv hne
    have hsum2 : ((g.sim_step_greedy choice).player
          (g.sim_step_greedy choice).current).hand.card +
        ((g.sim_step_greedy choice).player
          (((g.sim_step_greedy choice).current + 1) % 2)).hand.card = k := by
      rw [hcur2, hoth2]
      omega
    obtain ⟨hnone, w, u, hsome, hw⟩ := ih (g.sim_step_greedy choice) hinv2 hsum2
      (by rw [hcur2, hoth2]; omega) (by rw [hcur2, hoth2]; omega)
    constructor
    · intro m hm
      match m with
      | 0 => simp [Game.simulate_greedy, hover]
      | j + 1 =>
        have hj : j < k := by omega
        simp only [Game.simulate_greedy, hover, Bool.false_eq_true, if_false]
        exact hnone j hj
    · refine ⟨w, u, ?_, hw⟩
      simp only [Game.simulate_greedy, hover, Bool.false_eq_true, if_false]
      rw [hsome, hfst2]

/-- The per-iterate bookkeeping of the same loop: after `j` of the
`a + b` turns, exactly `j` cards have left the hands — one per turn,
always from the hand of the player who acted. -/
theorem sim_iter_facts (choice : Finset ℕ → ℕ)
    (hch : ∀ s : Finset ℕ, s.Nonempty → choice s ∈ s) :
    ∀ (j : ℕ) (g : Game), StateInv g →
      (g.player ((g.current + 1) % 2)).hand.card ≤ (g.player g.current).hand.card →
      (g.player g.current).hand.card ≤ (g.player ((g.current + 1) % 2)).hand.card + 1 →
      j ≤ (g.player g.current).hand.card + (g.player ((g.current + 1) % 2)).hand.card →
      (((Game.sim_step_greedy choice)^[j] g).player
          ((Game.sim_step_greedy choice)^[j] g).current).hand.card +
        (((Game.sim_step_greedy choice)^[j] g).player
          ((((Game.sim_step_greedy choice)^[j] g).current + 1) % 2)).hand.card =
        (g.player g.current).hand.card + (g.player ((g.current + 1) % 2)).hand.card - j := by
  intro j
  induction j with
  | zero =>
    intro g _ _ _ _
    simp
  | succ k ih =>
    intro g hinv hle1 hle2 hj
    have hne : (g.player g.current).hand.Nonempty := by
      rw [← Finset.card_pos]
      omega
    obtain ⟨hinv2, hcur2, hoth2, _⟩ := sim_step_facts choice hch g hinv hne
    rw [Function.iterate_succ_apply]
    have hr := ih (g.sim_step_greedy choice) hinv2
      (by rw [hcur2, hoth2]; omega) (by rw [hcur2, hoth2]; omega)
      (by rw [hcur2, hoth2]; omega)
    rw [hr, hcur2, hoth2]
    omega

/-! ## C8: the greedy-vs-greedy simulation -/

/-- C8: for the configuration `num_cards = 10, num_hand = 4,
num_table = 2` and any dealt hands, the greedy-vs-greedy simulation has
not terminated before 8 turns, terminates at exactly `num_hand * 2 = 8`
turns with both hands empty, returns a winner in `{-1, 0, 1}`, and each
turn removes exactly one card from the acting player's hand (after `j`
turns exactly `8 - j` cards remain in the two hands, the opponent's hand
untouched each turn). -/
theorem C8_greedy_simulation (choice : Finset ℕ → ℕ)
    (hch : ∀ s : Finset ℕ, s.Nonempty → choice s ∈ s) (g : Game) (hd : Dealt1042 g) :
    (∀ m < 8, Game.simulate_greedy choice m g = none) ∧
    (∃ w u, Game.simulate_greedy choice 8 g = some (g.first, w, u) ∧
      (w = -1 ∨ w = 0 ∨ w = 1)) ∧
    (∀ j ≤ 8,
      (((Game.sim_step_greedy choice)^[j] g).player
          ((Game.sim_step_greedy choice)^[j] g).current).hand.card +
        (((Game.sim_step_greedy choice)^[j] g).player
          ((((Game.sim_step_greedy choice)^[j] g).current + 1) % 2)).hand.card = 8 - j) := by
  obtain ⟨hinv, ha, hb⟩ := dealt_inv g hd
  obtain ⟨hnone, hex⟩ := sim_runs choice hch 8 g hinv (by omega) (by omega) (by omega)
  refine ⟨hnone, hex, fun j hj => ?_⟩
  have hiter := sim_iter_facts choice hch j g hinv (by omega) (by omega) (by omega)
  omega

theorem pickLow_mem (s : Finset ℕ) (h : s.Nonempty) : pickLow s ∈ s := by
  unfold pickLow
  rcases hl : setList s with _ | ⟨a, t⟩
  · obtain ⟨x, hx⟩ := h
    have hmem := mem_setList.mpr hx
    rw [hl] at hmem
    simp at hmem
  · have ha : a ∈ setList s := by rw [hl]; exact List.mem_cons_self _ _
    simpa using mem_setList.mp ha

/-- Witness for C8 at the concrete dealt state `simGame`: not over after
7 turns, and over after exactly 8 with a winner in range. -/
theorem C8_witness :
    Game.simulate_greedy pickLow 7 simGame = none ∧
    Game.simulate_greedy pickLow 8 simGame = some (simGame.first, (0 : ℤ), (-13 : ℤ)) ∧
    ((0 : ℤ) = -1 ∨ (0 : ℤ) = 0 ∨ (0 : ℤ) = 1) :=
  ⟨(C8_greedy_simulation pickLow pickLow_mem simGame (by decide)).1 7 (by omega),
    by decide, by decide⟩

/-! ## C4: the card-location disjointness claim -/

/-- Counterexample to C4: from the legitimately dealt state `dealtGame`
(hands {5} and {4}, table {2, 3}), playing the capture {2, 3, 5} offered
by the playable-move table completes a turn after which the card 5 is
simultaneously on the table and in the acting player's prime capture
stack — hands, table and the four capture stacks are not pairwise
disjoint after every completed turn. -/
theorem C4_counterexample :
    (({2, 3, 5}, (6 : ℤ)) ∈ dealtGame.playable_sets ∧
      (dealtGame.player dealtGame.current).can_play_move {2, 3, 5} = true) ∧
    5 ∈ (dealtGame.update {2, 3, 5} 6).table ∧
    5 ∈ (dealtGame.update {2, 3, 5} 6).players.1.primes := by
  decide

/-- C4 as amended: after every completed turn that plays a move from the
playable-move table, the weaker separation does hold — each card is in at
most one player's hand, hands are disjoint from the table and from all
four capture stacks, and the stacks are duplicate-free, correctly typed
and pairwise disjoint; but the table may overlap the capture stacks,
since `update_table` deliberately re-adds both players' stack tops to
the table. -/
theorem C4_amended_disjointness_preserved (g : Game) (m : Finset ℕ) (v : ℤ)
    (hinv : StateInv g) (hmem : (m, v) ∈ g.playable_sets)
    (hcp : (g.player g.current).can_play_move m = true) :
    StateInv (g.update m v) :=
  update_preserves_StateInv g m v hinv (good_move_of_key g hinv hmem hcp)

theorem dealtGame_StateInv : StateInv dealtGame := by
  refine ⟨by decide, by decide, ?_, by decide⟩
  constructor <;> decide

/-- Witness for the amended C4: the invariant holds again after the
capture turn of `C4_counterexample`. -/
theorem C4_amended_witness : StateInv (dealtGame.update {2, 3, 5} 6) :=
  C4_amended_disjointness_preserved dealtGame {2, 3, 5} 6 dealtGame_StateInv
    (by decide) (by decide)

end PrimiComposti
